import Mathlib

/-!
# Single-slot TTL cache (`cache.go`)

A shallow embedding of `Cache[T]`, its `record[T]`, and the operations `Get`,
`Clear`, `New` and `NewForTesting`.

Conventions of the embedding:

* `T` is the cached type; its Go zero value `*new(T)` is `default`.
* A Go `error` is `Option E`: `none` is `nil`.
* `time.Time` and `time.Duration` are integers (`Int`) counting nanoseconds;
  the zero `time.Time` is `0`.  `time.Duration` is an `int64`, so `Time.Sub`
  (and `time.Since`, which is `time.Now().Sub(t)`) saturates at `minDuration`
  and `maxDuration` as the Go library does.
* Records live on a heap (a list indexed by address), because `Clear` mutates
  the current record in place whereas the refresh branch of `Get` allocates a
  new record and swings `c.cache` to it.
* A producer `fn` acts on an environment `W` (whatever its closure captured) and
  either returns `(value, error)` or panics.  Following the Go specification, a
  `recover()` made while panicking yields a non-nil value.
* Every operation records the events it performs (lock, unlock, producer call,
  close of a gate, ...), so that "the producer is (not) invoked" is a statement
  about the event list and about the environment.
-/

namespace cache

/-- The largest `time.Duration`, `1<<63 - 1`. -/
def maxDuration : Int := 9223372036854775807

/-- The smallest `time.Duration`, `-1 << 63`. -/
def minDuration : Int := -9223372036854775808

/-- The values an `int64` duration can take. -/
def isDuration (d : Int) : Prop := minDuration ≤ d ∧ d ≤ maxDuration

instance (d : Int) : Decidable (isDuration d) := by
  unfold isDuration; infer_instance

/-- Go `t.Sub(u)`: the duration `t - u`, or the maximum (minimum) duration when
the difference exceeds what a `Duration` can store. -/
def Time.Sub (t u : Int) : Int :=
  if t - u > maxDuration then maxDuration
  else if t - u < minDuration then minDuration
  else t - u

/-- Go `time.Since(t)` when the clock reads `now`: `time.Now().Sub(t)`. -/
def Since (now t : Int) : Int := Time.Sub now t

/-- A `chan struct{}` on which only `close` and receive are ever used: the nil
channel, a channel made and not yet closed, or a closed channel. -/
inductive Chan where
  | nil
  | opened
  | closed
  deriving DecidableEq, Repr

/-- Go `close(ch)`: closing a nil or an already closed channel panics (`none`). -/
def Chan.close : Chan → Option Chan
  | .opened => some .closed
  | .nil => none
  | .closed => none

/-- Go `<-ch` with no other goroutine running: it proceeds on a closed channel
and blocks forever on a nil channel or on one nobody will close. -/
def Chan.recv : Chan → Bool
  | .closed => true
  | _ => false

/-- The struct `record[T]`. -/
structure record (T E : Type) where
  value : T
  createdAt : Int
  cacheFor : Int
  err : Option E
  ready : Chan
  deriving DecidableEq, Repr

/-- The struct `Cache[T]`: the pointer `cache` is an address into `heap`, the
records allocated so far.  (The embedded mutex shows as `lock`/`unlock` events.) -/
structure Cache (T E : Type) where
  heap : List (record T E)
  cache : Nat
  deriving DecidableEq, Repr

/-- What one call of a producer does: it returns `(value, err)` or it panics
with a (non-nil) panic value, here left abstract. -/
inductive Outcome (T E : Type) where
  | ret (v : T) (e : Option E)
  | panics
  deriving DecidableEq, Repr

/-- The type `Fn[T]`: a call reads and updates the environment `W` of the
closure and has an outcome. -/
abbrev Fn (W T E : Type) := W → Outcome T E × W

/-- The observable steps of `Get` and `Clear`. -/
inductive Event where
  | lock
  | unlock
  | install (p : Nat)
  | call
  | recovered
  | close (p : Nat)
  | recv (p : Nat)
  | blockOn (p : Nat)
  deriving DecidableEq, Repr

/-- How a call of `Get` ends: it returns `(value, err)`, it blocks forever on a
gate, or it panics (nil dereference, close of a closed channel). -/
inductive GetOut (T E : Type) where
  | returned (v : T) (e : Option E)
  | blocked
  | panicked
  deriving DecidableEq, Repr

/-- The result of running `Get`: the cache and producer environment afterwards,
how the call ended, and the events in program order. -/
structure GetResult (W T E : Type) where
  cache : Cache T E
  world : W
  out : GetOut T E
  trace : List Event

/-- The record a pointer refers to, if it is a valid address. -/
def Cache.deref {T E : Type} (c : Cache T E) (p : Nat) : Option (record T E) :=
  c.heap[p]?

/-- The current record `*c.cache`. -/
def Cache.current {T E : Type} (c : Cache T E) : Option (record T E) :=
  c.deref c.cache

/-- The tail of `Get` (lines 66-70): return the record's value and error. -/
def Get.result {T E : Type} (r : record T E) : GetOut T E :=
  match r.err with
  | some e => .returned r.value (some e)
  | none => .returned r.value none

/-- `Cache.Get`.  `tSince` is the clock reading taken by `time.Since` on line 41
and `tNow` the one taken by `time.Now` on line 47. -/
def Get {W T E : Type} [Inhabited T] (c : Cache T E) (fn : Fn W T E)
    (tSince tNow : Int) (w : W) : GetResult W T E :=
  -- c.Lock(); r := c.cache
  match c.deref c.cache with
  | none => ⟨c, w, .panicked, [.lock]⟩
  | some old =>
    let elapsed := Since tSince old.createdAt
    if elapsed > old.cacheFor then
      -- r = &record[T]{ready: make(chan struct{}), cacheFor: r.cacheFor}
      -- r.createdAt = time.Now(); c.cache = r; c.Unlock()
      let p := c.heap.length
      let r : record T E :=
        { value := default, createdAt := tNow, cacheFor := old.cacheFor,
          err := none, ready := .opened }
      let heap₁ := c.heap ++ [r]
      -- r.value, r.err = fn()
      match fn w with
      | (.ret v e, w₁) =>
        let r₁ : record T E := { r with value := v, err := e }
        -- close(r.ready); the deferred recover() then yields nil
        match r₁.ready.close with
        | some ch =>
          let r₂ : record T E := { r₁ with ready := ch }
          ⟨⟨heap₁.set p r₂, p⟩, w₁, Get.result r₂,
            [.lock, .install p, .unlock, .call, .close p]⟩
        | none =>
          ⟨⟨heap₁.set p r₁, p⟩, w₁, .panicked,
            [.lock, .install p, .unlock, .call]⟩
      | (.panics, w₁) =>
        -- the deferred function: recover() != nil, so close(r.ready);
        -- Get then returns the zero values of its results
        match r.ready.close with
        | some ch =>
          let r₂ : record T E := { r with ready := ch }
          ⟨⟨heap₁.set p r₂, p⟩, w₁, .returned default none,
            [.lock, .install p, .unlock, .call, .recovered, .close p]⟩
        | none =>
          ⟨⟨heap₁, p⟩, w₁, .panicked,
            [.lock, .install p, .unlock, .call, .recovered]⟩
    else
      -- c.Unlock(); <-r.ready
      if old.ready.recv then
        ⟨c, w, Get.result old, [.lock, .unlock, .recv c.cache]⟩
      else
        ⟨c, w, .blocked, [.lock, .unlock, .blockOn c.cache]⟩

/-- The result of running `Clear`: the cache afterwards, whether the call
panicked (nil dereference), and the events in program order. -/
structure ClearResult (T E : Type) where
  cache : Cache T E
  panicked : Bool
  trace : List Event

/-- `Cache.Clear`. -/
def Clear {T E : Type} [Inhabited T] (c : Cache T E) : ClearResult T E :=
  -- c.Lock(); r := c.cache
  match c.deref c.cache with
  | none => ⟨c, true, [.lock]⟩
  | some r =>
    -- r.value = *new(T); r.cacheFor = 0; c.Unlock()
    let r₁ : record T E := { r with value := default }
    let r₂ : record T E := { r₁ with cacheFor := 0 }
    ⟨⟨c.heap.set c.cache r₂, c.cache⟩, false, [.lock, .unlock]⟩

/-- `New`: one record, with every field but `cacheFor` at its zero value. -/
def New {T E : Type} [Inhabited T] (cacheFor : Int) : Cache T E :=
  { heap := [{ value := default, createdAt := 0, cacheFor := cacheFor,
               err := none, ready := .nil }],
    cache := 0 }

/-- `NewForTesting`. -/
def NewForTesting {T E : Type} [Inhabited T] : Cache T E :=
  { heap := [{ value := default, createdAt := 0, cacheFor := 0,
               err := none, ready := .nil }],
    cache := 0 }


/-- One call made on a cache: `Get` with its producer and clock readings, or `Clear`. -/
inductive Op (W T E : Type) where
  | get (fn : Fn W T E) (tSince tNow : Int)
  | clear

/-- The cache and the producers' environment after one call. -/
def Op.apply {W T E : Type} [Inhabited T] (s : Cache T E × W) : Op W T E → Cache T E × W
  | .get fn tSince tNow => ((Get s.1 fn tSince tNow s.2).cache, (Get s.1 fn tSince tNow s.2).world)
  | .clear => ((Clear s.1).cache, s.2)

/-- The cache and the producers' environment after a sequence of calls, made
one after the other. -/
def run {W T E : Type} [Inhabited T] (s : Cache T E × W) (ops : List (Op W T E)) :
    Cache T E × W :=
  ops.foldl Op.apply s

/-- A call of `Get`: its producer and its two clock readings. -/
structure Call (W T E : Type) where
  fn : Fn W T E
  tSince : Int
  tNow : Int

/-- The results of a sequence of `Get` calls, each made on the state the
previous one left. -/
def runGets {W T E : Type} [Inhabited T] (c : Cache T E) (w : W) :
    List (Call W T E) → List (GetResult W T E)
  | [] => []
  | k :: ks =>
    Get c k.fn k.tSince k.tNow w ::
      runGets (Get c k.fn k.tSince k.tNow w).cache (Get c k.fn k.tSince k.tNow w).world ks

/-- The record the refresh branch allocates, before the producer runs. -/
def freshRecord {T E : Type} [Inhabited T] (old : record T E) (tNow : Int) : record T E :=
  { value := default, createdAt := tNow, cacheFor := old.cacheFor, err := none, ready := .opened }

/-- The clock readings of a sequence of `Get` calls are strictly increasing from
`last`: each call reads `time.Since` strictly later than `last`, the reading of
`time.Now` of the call before it (or the starting point). -/
def StrictlyLater {W T E : Type} (last : Int) : List (Call W T E) → Prop
  | [] => True
  | k :: ks => last < k.tSince ∧ StrictlyLater k.tNow ks

instance StrictlyLater.instDecidable {W T E : Type} :
    (last : Int) → (ks : List (Call W T E)) → Decidable (StrictlyLater last ks)
  | _, [] => isTrue trivial
  | last, k :: ks =>
    have := StrictlyLater.instDecidable k.tNow ks
    inferInstanceAs (Decidable (last < k.tSince ∧ StrictlyLater k.tNow ks))

/-- The clock readings of a sequence of `Get` calls never go back: no reading is
earlier than the one before it, starting from `last`. -/
def NonDecreasing {W T E : Type} (last : Int) : List (Call W T E) → Prop
  | [] => True
  | k :: ks => last ≤ k.tSince ∧ k.tSince ≤ k.tNow ∧ NonDecreasing k.tNow ks

instance NonDecreasing.instDecidable {W T E : Type} :
    (last : Int) → (ks : List (Call W T E)) → Decidable (NonDecreasing last ks)
  | _, [] => isTrue trivial
  | last, k :: ks =>
    have := NonDecreasing.instDecidable k.tNow ks
    inferInstanceAs (Decidable (last ≤ k.tSince ∧ k.tSince ≤ k.tNow ∧ NonDecreasing k.tNow ks))

/-- Every `Get` of a sequence of calls, made one after the other from cache `c`
and environment `w`, invokes its own producer, exactly once, and returns what
that producer returned. -/
def EveryGetRefreshes {W T E : Type} [Inhabited T] (c : Cache T E) (w : W) :
    List (Call W T E) → Prop
  | [] => True
  | k :: ks =>
    (Get c k.fn k.tSince k.tNow w).trace.count Event.call = 1 ∧
    (Get c k.fn k.tSince k.tNow w).world = (k.fn w).2 ∧
    (∀ v e, (k.fn w).1 = .ret v e → (Get c k.fn k.tSince k.tNow w).out = .returned v e) ∧
    EveryGetRefreshes (Get c k.fn k.tSince k.tNow w).cache
      (Get c k.fn k.tSince k.tNow w).world ks

/-! ### Concurrent calls of `Get`

Goroutines run `Get` one statement at a time, interleaved in any order; the
shared memory is sequentially consistent (the program has no data race: the
cache pointer and the fields `createdAt`, `cacheFor` are accessed under the
mutex, `value` and `err` are written before the gate is closed and read after
it was seen closed). -/

/-- The program points of a goroutine running `Get`, each with its live local
variables: `r` is the local pointer, `elapsed` the local duration. -/
inductive Pc (T E : Type) where
  /-- Line 39, `c.Lock()`. -/
  | lock
  /-- Line 40, `r := c.cache`. -/
  | load
  /-- Line 41, `elapsed := time.Since(r.createdAt)`. -/
  | since (r : Nat)
  /-- Line 42, `if elapsed > r.cacheFor`. -/
  | test (r : Nat) (elapsed : Int)
  /-- Lines 43-46, `r = &record[T]{ready: make(chan struct{}), cacheFor: r.cacheFor}`. -/
  | alloc (r : Nat)
  /-- Line 47, `r.createdAt = time.Now()`. -/
  | stamp (r : Nat)
  /-- Line 49, `c.cache = r`. -/
  | install (r : Nat)
  /-- Line 50, `c.Unlock()`. -/
  | unlockR (r : Nat)
  /-- Line 59, the call `fn()`. -/
  | call (r : Nat)
  /-- Line 59, the assignment `r.value, r.err = ...` of what `fn` returned. -/
  | store (r : Nat) (v : T) (e : Option E)
  /-- Line 60, `close(r.ready)`. -/
  | close (r : Nat)
  /-- Lines 53-57, the deferred function after `fn` panicked. -/
  | recover (r : Nat)
  /-- Line 62, `c.Unlock()`. -/
  | unlockW (r : Nat)
  /-- Line 63, `<-r.ready`. -/
  | recv (r : Nat)
  /-- Lines 66-70, the return statements (the deferred function then finds that
  `recover()` is nil and does nothing). -/
  | ret (r : Nat)
  /-- The call has returned `(v, e)`. -/
  | done (v : T) (e : Option E)
  /-- The goroutine panicked: nil dereference, close of a closed or nil channel,
  unlock of an unlocked mutex. -/
  | crashed
  deriving DecidableEq, Repr

/-- The memory the goroutines share: the heap of records, the fields of the cache
(pointer and mutex), the environment of the producers, and the list of the
goroutines that invoked their producer so far. -/
structure Shared (W T E : Type) where
  heap : List (record T E)
  cache : Nat
  mu : Bool
  world : W
  calls : List Nat

/-- One statement of `Get`, executed by goroutine `id` with producer `fn` while
the clock reads `t`.  `none`: the goroutine cannot move (it waits for the mutex
or for the gate, or it has finished). -/
def Pc.step {W T E : Type} [Inhabited T] (id : Nat) (fn : Fn W T E) (t : Int)
    (g : Shared W T E) : Pc T E → Option (Pc T E × Shared W T E)
  | .lock => if g.mu then none else some (.load, { g with mu := true })
  | .load => some (.since g.cache, g)
  | .since r =>
    match g.heap[r]? with
    | none => some (.crashed, g)
    | some rec => some (.test r (Since t rec.createdAt), g)
  | .test r elapsed =>
    match g.heap[r]? with
    | none => some (.crashed, g)
    | some rec => if elapsed > rec.cacheFor then some (.alloc r, g) else some (.unlockW r, g)
  | .alloc r =>
    match g.heap[r]? with
    | none => some (.crashed, g)
    | some rec =>
      some (.stamp g.heap.length,
        { g with heap := g.heap ++ [{ value := default, createdAt := 0,
                                      cacheFor := rec.cacheFor, err := none,
                                      ready := .opened }] })
  | .stamp r =>
    match g.heap[r]? with
    | none => some (.crashed, g)
    | some rec => some (.install r, { g with heap := g.heap.set r { rec with createdAt := t } })
  | .install r => some (.unlockR r, { g with cache := r })
  | .unlockR r => if g.mu then some (.call r, { g with mu := false }) else some (.crashed, g)
  | .call r =>
    match fn g.world with
    | (.ret v e, w₁) => some (.store r v e, { g with world := w₁, calls := g.calls ++ [id] })
    | (.panics, w₁) => some (.recover r, { g with world := w₁, calls := g.calls ++ [id] })
  | .store r v e =>
    match g.heap[r]? with
    | none => some (.crashed, g)
    | some rec => some (.close r, { g with heap := g.heap.set r { rec with value := v, err := e } })
  | .close r =>
    match g.heap[r]? with
    | none => some (.crashed, g)
    | some rec =>
      match rec.ready.close with
      | none => some (.crashed, g)
      | some ch => some (.ret r, { g with heap := g.heap.set r { rec with ready := ch } })
  | .recover r =>
    match g.heap[r]? with
    | none => some (.crashed, g)
    | some rec =>
      match rec.ready.close with
      | none => some (.crashed, g)
      | some ch =>
        some (.done default none, { g with heap := g.heap.set r { rec with ready := ch } })
  | .unlockW r => if g.mu then some (.recv r, { g with mu := false }) else some (.crashed, g)
  | .recv r =>
    match g.heap[r]? with
    | none => some (.crashed, g)
    | some rec => if rec.ready = .closed then some (.ret r, g) else none
  | .ret r =>
    match g.heap[r]? with
    | none => some (.crashed, g)
    | some rec =>
      match rec.err with
      | some e => some (.done rec.value (some e), g)
      | none => some (.done rec.value none, g)
  | .done _ _ => none
  | .crashed => none

/-- A goroutine running `Get(fn)`. -/
structure Goroutine (W T E : Type) where
  fn : Fn W T E
  pc : Pc T E

/-- The goroutines and the memory they share. -/
structure System (W T E : Type) where
  mem : Shared W T E
  threads : List (Goroutine W T E)

/-- Goroutine `i` executes its next statement while the clock reads `t`; `none`
when there is no such goroutine or it cannot move. -/
def System.step {W T E : Type} [Inhabited T] (s : System W T E) (i : Nat) (t : Int) :
    Option (System W T E) :=
  match s.threads[i]? with
  | none => none
  | some th =>
    match Pc.step i th.fn t s.mem th.pc with
    | none => none
    | some (pc, mem) => some ⟨mem, s.threads.set i ⟨th.fn, pc⟩⟩

/-- An interleaving: which goroutine is scheduled next, and what the clock reads
then.  Scheduling a goroutine that cannot move changes nothing. -/
def exec {W T E : Type} [Inhabited T] (s : System W T E) (sched : List (Nat × Int)) :
    System W T E :=
  sched.foldl (fun s e => (s.step e.1 e.2).getD s) s

/-- The calls `Get(fn)` for `fn` in `fns`, all about to start on cache `c`. -/
def spawn {W T E : Type} (c : Cache T E) (w : W) (fns : List (Fn W T E)) : System W T E :=
  ⟨⟨c.heap, c.cache, false, w, []⟩, fns.map (fun fn => ⟨fn, .lock⟩)⟩

/-- The call has returned. -/
def Pc.isDone {T E : Type} : Pc T E → Bool
  | .done _ _ => true
  | _ => false

/-- The number of statements a goroutine at this program point has executed, at most. -/
def Pc.rank {T E : Type} : Pc T E → Nat
  | .lock => 0
  | .load => 1
  | .since _ => 2
  | .test _ _ => 3
  | .alloc _ => 4
  | .stamp _ => 5
  | .install _ => 6
  | .unlockR _ => 7
  | .call _ => 8
  | .store _ _ _ => 9
  | .close _ => 10
  | .recover _ => 10
  | .unlockW _ => 4
  | .recv _ => 5
  | .ret _ => 11
  | .done _ _ => 12
  | .crashed => 12

/-- The progress made by all goroutines together. -/
def System.rank {W T E : Type} (s : System W T E) : Nat :=
  (s.threads.map (fun th => th.pc.rank)).sum

/-! ### The invariant of concurrent calls on a stale record

The setting: the heap had `n₀` records, `c.cache` was `p₀` and pointed at a
stale record with `cacheFor = ttl`. -/

/-- The goroutine holds the mutex at this program point. -/
def Pc.crit {T E : Type} : Pc T E → Bool
  | .load | .since _ | .test _ _ | .alloc _ | .stamp _ | .install _ | .unlockR _
  | .unlockW _ => true
  | _ => false

/-- The goroutine is the refresher and has not closed the gate yet. -/
def Pc.refr {T E : Type} : Pc T E → Bool
  | .stamp _ | .install _ | .unlockR _ | .call _ | .store _ _ _ | .close _
  | .recover _ => true
  | _ => false

/-- The record at address `n₀` is the one the refresher allocated, with its
producer not yet called: creation time `t`, gate open. -/
def Shared.pending {W T E : Type} [Inhabited T] (m : Shared W T E) (n₀ : Nat) (ttl t : Int) :
    Prop :=
  m.heap[n₀]? = some ⟨default, t, ttl, none, .opened⟩

/-- The gate of the record at `n₀` is not closed (or there is no such record). -/
def Shared.gateNotClosed {W T E : Type} (m : Shared W T E) (n₀ : Nat) : Prop :=
  ∀ rec, m.heap[n₀]? = some rec → rec.ready ≠ .closed

/-- What holds of goroutine `i` at each program point. -/
def Pc.ok {W T E : Type} [Inhabited T] (n₀ p₀ : Nat) (ttl : Int)
    (m : Shared W T E) (i : Nat) : Pc T E → Prop
  | .lock => True
  | .load => True
  | .since r => r = m.cache
  | .test r elapsed =>
    r = m.cache ∧ (m.cache = p₀ → elapsed > ttl) ∧ (m.cache = n₀ → elapsed ≤ ttl)
  | .alloc r => r = p₀ ∧ m.cache = p₀ ∧ m.heap.length = n₀
  | .stamp r => r = n₀ ∧ m.cache = p₀ ∧ m.pending n₀ ttl 0 ∧ m.calls = []
  | .install r => r = n₀ ∧ m.cache = p₀ ∧ (∃ t, m.pending n₀ ttl t) ∧ m.calls = []
  | .unlockR r => r = n₀ ∧ m.cache = n₀ ∧ (∃ t, m.pending n₀ ttl t) ∧ m.calls = []
  | .call r => r = n₀ ∧ m.cache = n₀ ∧ (∃ t, m.pending n₀ ttl t) ∧ m.calls = []
  | .store r _ _ => r = n₀ ∧ m.cache = n₀ ∧ (∃ t, m.pending n₀ ttl t) ∧ m.calls = [i]
  | .close r =>
    r = n₀ ∧ m.cache = n₀ ∧ (∃ rec, m.heap[n₀]? = some rec ∧ rec.ready = .opened) ∧
      m.calls = [i]
  | .recover r => r = n₀ ∧ m.cache = n₀ ∧ (∃ t, m.pending n₀ ttl t) ∧ m.calls = [i]
  | .unlockW r => r = n₀ ∧ m.cache = n₀
  | .recv r => r = n₀ ∧ m.cache = n₀
  | .ret r => r = n₀ ∧ m.cache = n₀ ∧ ∃ rec, m.heap[n₀]? = some rec ∧ rec.ready = .closed
  | .done v e =>
    m.cache = n₀ ∧
      ∃ rec, m.heap[n₀]? = some rec ∧ rec.ready = .closed ∧ rec.value = v ∧ rec.err = e
  | .crashed => False

/-- What holds of every goroutine, given who holds the mutex and who refreshes. -/
def Goroutine.ok {W T E : Type} [Inhabited T] (n₀ p₀ : Nat) (ttl : Int)
    (holder refresher : Option Nat) (m : Shared W T E) (i : Nat) (th : Goroutine W T E) :
    Prop :=
  th.pc.ok n₀ p₀ ttl m i ∧ (th.pc.crit = true ↔ holder = some i) ∧
    (th.pc.refr = true ↔ refresher = some i)

/-- What holds of the shared memory. -/
def Shared.ok {W T E : Type} (h₀ : List (record T E)) (p₀ : Nat) (ttl : Int)
    (holder refresher : Option Nat) (n : Nat) (m : Shared W T E) : Prop :=
  h₀.length ≤ m.heap.length ∧ m.heap.length ≤ h₀.length + 1 ∧
  (∀ p, p < h₀.length → m.heap[p]? = h₀[p]?) ∧
  (m.cache = p₀ ∨ m.cache = h₀.length) ∧
  (m.cache = h₀.length → ∃ rec, m.heap[h₀.length]? = some rec ∧ rec.cacheFor = ttl) ∧
  (∀ rec, m.heap[h₀.length]? = some rec →
    (rec.ready = .opened ∧ refresher ≠ none) ∨
    (rec.ready = .closed ∧ refresher = none ∧ ∃ i, m.calls = [i] ∧ i < n)) ∧
  (m.heap.length = h₀.length → refresher = none ∧ m.calls = []) ∧
  (m.cache = p₀ → m.heap.length = h₀.length ∨ (holder ≠ none ∧ holder = refresher)) ∧
  m.calls.length ≤ 1 ∧
  (m.mu = true ↔ holder ≠ none) ∧
  (∀ i, holder = some i → i < n) ∧
  (∀ i, refresher = some i → i < n)

/-- The invariant of the goroutines running `Get` on a cache whose record at `p₀`
was stale when they started. -/
def System.Inv {W T E : Type} [Inhabited T] (h₀ : List (record T E)) (p₀ : Nat) (ttl : Int)
    (s : System W T E) : Prop :=
  ∃ holder refresher : Option Nat,
    s.mem.ok h₀ p₀ ttl holder refresher s.threads.length ∧
    ∀ i th, s.threads[i]? = some th →
      Goroutine.ok h₀.length p₀ ttl holder refresher s.mem i th

/-- The clock reading `t` is within the TTL window of the refresh: when the record
at address `n₀` is the current one, `t` is no earlier than its `createdAt` and at
most `ttl` later. -/
def Shared.inWindow {W T E : Type} (m : Shared W T E) (n₀ : Nat) (ttl t : Int) : Prop :=
  match m.heap[n₀]? with
  | some rec => m.cache = n₀ → rec.createdAt ≤ t ∧ t - rec.createdAt ≤ ttl
  | none => True

instance Shared.inWindow.instDecidable {W T E : Type} (m : Shared W T E) (n₀ : Nat)
    (ttl t : Int) : Decidable (m.inWindow n₀ ttl t) := by
  unfold Shared.inWindow
  cases m.heap[n₀]? <;> infer_instance

/-- The clock readings along an interleaving run from state `s`: none is earlier
than `t₀`, and every reading made once the record at address `n₀` is installed is
within its TTL window. -/
def InWindow {W T E : Type} [Inhabited T] (t₀ : Int) (n₀ : Nat) (ttl : Int) :
    System W T E → List (Nat × Int) → Prop
  | _, [] => True
  | s, e :: rest =>
    t₀ ≤ e.2 ∧ s.mem.inWindow n₀ ttl e.2 ∧ InWindow t₀ n₀ ttl ((s.step e.1 e.2).getD s) rest

instance InWindow.instDecidable {W T E : Type} [Inhabited T] (t₀ : Int) (n₀ : Nat)
    (ttl : Int) : (s : System W T E) → (sched : List (Nat × Int)) →
      Decidable (InWindow t₀ n₀ ttl s sched)
  | _, [] => isTrue trivial
  | s, e :: rest =>
    have := InWindow.instDecidable t₀ n₀ ttl ((s.step e.1 e.2).getD s) rest
    inferInstanceAs (Decidable (t₀ ≤ e.2 ∧ s.mem.inWindow n₀ ttl e.2 ∧
      InWindow t₀ n₀ ttl ((s.step e.1 e.2).getD s) rest))

/-- The schedule of a single goroutine running `Get` alone: its clock reads
`tSince` up to the test on line 42 and `tNow` from then on.  Twelve entries are
enough for every path through `Get`. -/
def soloSchedule (tSince tNow : Int) : List (Nat × Int) :=
  [(0, tSince), (0, tSince), (0, tSince), (0, tSince), (0, tNow), (0, tNow), (0, tNow),
   (0, tNow), (0, tNow), (0, tNow), (0, tNow), (0, tNow)]

/-- Where the goroutine of a call that ended as `out` stands: returned, waiting on
the gate of the record at `p`, or panicked. -/
def GetOut.pc {T E : Type} (p : Nat) : GetOut T E → Pc T E
  | .returned v e => .done v e
  | .blocked => .recv p
  | .panicked => .crashed

/-- The addresses of the records whose gate a run closed, in program order. -/
def closes (trace : List Event) : List Nat :=
  trace.filterMap fun e =>
    match e with
    | .close p => some p
    | _ => none

/-! ### The mutex along a call

The states a call goes through, statement by statement, so that "the mutex is
held" is a fact about the mutex bit of the shared memory at a given moment. -/

/-- The states an interleaving goes through: the state it starts from, then the
state after each of its entries. -/
def trajectory {W T E : Type} [Inhabited T] (s : System W T E) :
    List (Nat × Int) → List (System W T E)
  | [] => [s]
  | e :: rest => s :: trajectory ((s.step e.1 e.2).getD s) rest

/-- How many times the mutex bit goes from free to held along a history. -/
def acquisitions (mu : List Bool) : Nat :=
  (mu.zip mu.tail).count (false, true)

/-- How many times the mutex bit goes from held to free along a history. -/
def releases (mu : List Bool) : Nat :=
  (mu.zip mu.tail).count (true, false)

/-- The program points of a goroutine running `Clear`, with the local pointer `r`. -/
inductive ClearPc where
  /-- Line 75, `c.Lock()`. -/
  | lock
  /-- Line 76, `r := c.cache`. -/
  | load
  /-- Line 77, `r.value = *new(T)`. -/
  | zeroValue (r : Nat)
  /-- Line 78, `r.cacheFor = 0`. -/
  | zeroCacheFor (r : Nat)
  /-- Line 79, `c.Unlock()`. -/
  | unlock
  /-- The call has returned. -/
  | done
  /-- The goroutine panicked: nil dereference, unlock of an unlocked mutex. -/
  | crashed
  deriving DecidableEq, Repr

/-- One statement of `Clear`.  `none`: the goroutine cannot move (it waits for
the mutex, or it has finished). -/
def ClearPc.step {W T E : Type} [Inhabited T] (g : Shared W T E) :
    ClearPc → Option (ClearPc × Shared W T E)
  | .lock => if g.mu then none else some (.load, { g with mu := true })
  | .load => some (.zeroValue g.cache, g)
  | .zeroValue r =>
    match g.heap[r]? with
    | none => some (.crashed, g)
    | some rec =>
      some (.zeroCacheFor r, { g with heap := g.heap.set r { rec with value := default } })
  | .zeroCacheFor r =>
    match g.heap[r]? with
    | none => some (.crashed, g)
    | some rec => some (.unlock, { g with heap := g.heap.set r { rec with cacheFor := 0 } })
  | .unlock => if g.mu then some (.done, { g with mu := false }) else some (.crashed, g)
  | .done => none
  | .crashed => none

/-- The states a goroutine running `Clear` alone goes through in `n` statements:
where it starts, then the state after each statement (unchanged when it cannot
move). -/
def ClearPc.trajectory {W T E : Type} [Inhabited T] :
    Nat → ClearPc → Shared W T E → List (ClearPc × Shared W T E)
  | 0, pc, g => [(pc, g)]
  | n + 1, pc, g =>
    (pc, g) :: ClearPc.trajectory n ((ClearPc.step g pc).getD (pc, g)).1
      ((ClearPc.step g pc).getD (pc, g)).2

/-! ### Concrete producers, used to evaluate the operations -/

/-- A producer returning `(123, nil)`; it counts its calls in the environment. -/
def produce123 : Fn Nat Nat Nat := fun w => (.ret 123 none, w + 1)

/-- A producer returning `(456, nil)`; it counts its calls in the environment. -/
def produce456 : Fn Nat Nat Nat := fun w => (.ret 456 none, w + 1)

/-- A producer returning `(7, err 9)`; it counts its calls in the environment. -/
def produceErr : Fn Nat Nat Nat := fun w => (.ret 7 (some 9), w + 1)

/-- A producer that panics; it counts its calls in the environment. -/
def producePanic : Fn Nat Nat Nat := fun w => (.panics, w + 1)

/-- An interleaving of three calls: goroutine 0 takes the mutex, goroutine 1 waits
for it, goroutine 0 refreshes, goroutine 1 then finds the record fresh and waits
on the gate, goroutine 0 calls its producer and closes the gate, and goroutine 2
runs last.  Each entry is the goroutine scheduled and the clock reading. -/
def interleaving3 : List (Nat × Int) :=
  [(0, 5000), (1, 5000), (0, 5001), (0, 5002), (0, 5003), (0, 5003), (0, 5004), (0, 5005),
   (0, 5006), (1, 5007), (1, 5007), (1, 5007), (1, 5007), (1, 5007), (1, 5007), (0, 5008),
   (0, 5008), (0, 5008), (0, 5008), (0, 5008), (1, 5009), (1, 5009), (1, 5009), (2, 5100),
   (2, 5100), (2, 5100), (2, 5100), (2, 5100), (2, 5100), (2, 5100), (2, 5100)]

/-- An interleaving of two calls on a cache whose TTL is zero: goroutine 0
refreshes (clock at `5000`), installs its record and is about to call its
producer; goroutine 1, with the clock at `5001`, finds that record expired,
installs a record of its own and is about to call its producer; goroutine 0 then
calls its producer, closes the gate of its record and returns. -/
def interleaving2 : List (Nat × Int) :=
  [(0, 5000), (0, 5000), (0, 5000), (0, 5000), (0, 5000), (0, 5000), (0, 5000), (0, 5000),
   (1, 5001), (1, 5001), (1, 5001), (1, 5001), (1, 5001), (1, 5001), (1, 5001), (1, 5001),
   (0, 5002), (0, 5002), (0, 5002), (0, 5002)]

end cache

namespace cache

/-! ## Clock arithmetic -/

theorem Since_le_maxDuration (now t : Int) : Since now t ≤ maxDuration := by
  unfold Since Time.Sub maxDuration minDuration
  split_ifs <;> omega

theorem minDuration_le_Since (now t : Int) : minDuration ≤ Since now t := by
  unfold Since Time.Sub maxDuration minDuration
  split_ifs <;> omega

theorem Since_le_of_sub_le {now t : Int} {d : Int} (h₁ : t ≤ now) (h₂ : now - t ≤ d) :
    Since now t ≤ d := by
  unfold Since Time.Sub maxDuration minDuration
  split_ifs <;> omega

theorem Since_pos_iff (now t : Int) : Since now t > 0 ↔ t < now := by
  unfold Since Time.Sub maxDuration minDuration
  split_ifs <;> omega

theorem Since_self (t : Int) : Since t t = 0 := by
  unfold Since Time.Sub maxDuration minDuration
  split_ifs <;> omega

/-! ## The two branches of `Get` -/

theorem Get.result_eq {T E : Type} (r : record T E) :
    Get.result r = .returned r.value r.err := by
  unfold Get.result
  cases h : r.err <;> simp

theorem current_set_append {T E : Type} (h : List (record T E)) (a b : record T E) :
    Cache.current ⟨(h ++ [a]).set h.length b, h.length⟩ = some b := by
  simp [Cache.current, Cache.deref]

/-- The refresh branch with a producer that returns. -/
theorem Get_stale_ret {W T E : Type} [Inhabited T] {c : Cache T E} {old : record T E}
    {fn : Fn W T E} {tSince : Int} (tNow : Int) {w w₁ : W} {v : T} {e : Option E}
    (hcur : c.current = some old) (hstale : Since tSince old.createdAt > old.cacheFor)
    (hfn : fn w = (.ret v e, w₁)) :
    Get c fn tSince tNow w =
      ⟨⟨(c.heap ++ [freshRecord old tNow]).set c.heap.length
          { freshRecord old tNow with value := v, err := e, ready := .closed }, c.heap.length⟩,
        w₁, .returned v e,
        [.lock, .install c.heap.length, .unlock, .call, .close c.heap.length]⟩ := by
  unfold Cache.current at hcur
  simp [Get, hcur, hstale, hfn, Chan.close, Get.result_eq, freshRecord]

/-- The refresh branch with a producer that panics. -/
theorem Get_stale_panics {W T E : Type} [Inhabited T] {c : Cache T E} {old : record T E}
    {fn : Fn W T E} {tSince : Int} (tNow : Int) {w w₁ : W}
    (hcur : c.current = some old) (hstale : Since tSince old.createdAt > old.cacheFor)
    (hfn : fn w = (.panics, w₁)) :
    Get c fn tSince tNow w =
      ⟨⟨(c.heap ++ [freshRecord old tNow]).set c.heap.length
          { freshRecord old tNow with ready := .closed }, c.heap.length⟩,
        w₁, .returned default none,
        [.lock, .install c.heap.length, .unlock, .call, .recovered, .close c.heap.length]⟩ := by
  unfold Cache.current at hcur
  simp [Get, hcur, hstale, hfn, Chan.close, freshRecord]

/-- The wait branch on a record whose gate is closed. -/
theorem Get_fresh_closed {W T E : Type} [Inhabited T] (c : Cache T E) {r : record T E}
    (fn : Fn W T E) (tSince tNow : Int) (w : W)
    (hcur : c.current = some r) (hfresh : Since tSince r.createdAt ≤ r.cacheFor)
    (hready : r.ready = .closed) :
    Get c fn tSince tNow w =
      ⟨c, w, .returned r.value r.err, [.lock, .unlock, .recv c.cache]⟩ := by
  unfold Cache.current at hcur
  have h : ¬ (Since tSince r.createdAt > r.cacheFor) := not_lt.mpr hfresh
  simp [Get, hcur, h, hready, Chan.recv, Get.result_eq]

/-- The wait branch on a record whose gate is not closed. -/
theorem Get_fresh_not_closed {W T E : Type} [Inhabited T] (c : Cache T E) {r : record T E}
    (fn : Fn W T E) (tSince tNow : Int) (w : W)
    (hcur : c.current = some r) (hfresh : Since tSince r.createdAt ≤ r.cacheFor)
    (hready : r.ready ≠ .closed) :
    Get c fn tSince tNow w = ⟨c, w, .blocked, [.lock, .unlock, .blockOn c.cache]⟩ := by
  unfold Cache.current at hcur
  have h : ¬ (Since tSince r.createdAt > r.cacheFor) := not_lt.mpr hfresh
  have h' : r.ready.recv = false := by
    cases hr : r.ready <;> simp_all [Chan.recv]
  simp [Get, hcur, h, h']

/-- A call of `Get` invoked its producer only in the refresh branch. -/
theorem Get_call_mem {W T E : Type} [Inhabited T] {c : Cache T E}
    {fn : Fn W T E} {tSince tNow : Int} {w : W}
    (h : Event.call ∈ (Get c fn tSince tNow w).trace) :
    ∃ old, c.current = some old ∧ Since tSince old.createdAt > old.cacheFor := by
  unfold Cache.current
  cases hcur : c.deref c.cache with
  | none => simp [Get, hcur] at h
  | some old =>
    refine ⟨old, rfl, ?_⟩
    by_contra hs
    by_cases hr : old.ready.recv <;> simp [Get, hcur, hs, hr] at h

end cache

namespace cache

/-! ## Claims -/

/-- C1 (freshness window).  Suppose `Get(f)` refreshed the cache, calling `time.Now`
at `t₁`, and left a current record `rec` whose `cacheFor` is `ttl`.  Then
`rec.createdAt = t₁`, `Get(f)` returned some `(v, e)`, and a `Get(g)` whose clock
reads `t₂`, where `t₁ ≤ t₂` and `t₂ - t₁ ≤ ttl` (so `ttl ≥ 0`), does not invoke `g`
(no call event, the environment of the producers is untouched), returns the same
`(v, e)` and leaves the whole cache, hence its current record, unchanged. -/
theorem freshness_window {W T E : Type} [Inhabited T] (c : Cache T E) (f g : Fn W T E)
    (s₁ t₁ t₂ u₂ ttl : Int) (w : W) (rec : record T E)
    (hrefresh : Event.call ∈ (Get c f s₁ t₁ w).trace)
    (hrec : (Get c f s₁ t₁ w).cache.current = some rec)
    (httl : rec.cacheFor = ttl)
    (h12 : t₁ ≤ t₂) (hwin : t₂ - t₁ ≤ ttl) :
    rec.createdAt = t₁ ∧
    (∃ v e, (Get c f s₁ t₁ w).out = .returned v e) ∧
    Event.call ∉ (Get (Get c f s₁ t₁ w).cache g t₂ u₂ (Get c f s₁ t₁ w).world).trace ∧
    (Get (Get c f s₁ t₁ w).cache g t₂ u₂ (Get c f s₁ t₁ w).world).world
      = (Get c f s₁ t₁ w).world ∧
    (Get (Get c f s₁ t₁ w).cache g t₂ u₂ (Get c f s₁ t₁ w).world).out
      = (Get c f s₁ t₁ w).out ∧
    (Get (Get c f s₁ t₁ w).cache g t₂ u₂ (Get c f s₁ t₁ w).world).cache
      = (Get c f s₁ t₁ w).cache := by
  obtain ⟨old, hcur, hstale⟩ := Get_call_mem hrefresh
  rcases hf : f w with ⟨o, w₁⟩
  cases o with
  | ret v e =>
    have hG := Get_stale_ret t₁ hcur hstale hf
    rw [hG] at hrec ⊢
    simp only [current_set_append, Option.some.injEq] at hrec
    subst hrec
    have hfresh : Since t₂ t₁ ≤ old.cacheFor := by
      have : old.cacheFor = ttl := by simpa [freshRecord] using httl
      rw [this]; exact Since_le_of_sub_le h12 hwin
    have hW := Get_fresh_closed ⟨(c.heap ++ [freshRecord old t₁]).set c.heap.length
        { freshRecord old t₁ with value := v, err := e, ready := .closed }, c.heap.length⟩
      g t₂ u₂ w₁ (current_set_append _ _ _) (by simpa [freshRecord] using hfresh) rfl
    simp only [hW]
    simp [freshRecord]
  | panics =>
    have hG := Get_stale_panics t₁ hcur hstale hf
    rw [hG] at hrec ⊢
    simp only [current_set_append, Option.some.injEq] at hrec
    subst hrec
    have hfresh : Since t₂ t₁ ≤ old.cacheFor := by
      have : old.cacheFor = ttl := by simpa [freshRecord] using httl
      rw [this]; exact Since_le_of_sub_le h12 hwin
    have hW := Get_fresh_closed ⟨(c.heap ++ [freshRecord old t₁]).set c.heap.length
        { freshRecord old t₁ with ready := .closed }, c.heap.length⟩
      g t₂ u₂ w₁ (current_set_append _ _ _) (by simpa [freshRecord] using hfresh) rfl
    simp only [hW]
    simp [freshRecord]

end cache

namespace cache

theorem freshness_window_witness :
    (Event.call ∈ (Get (New 1000) produce123 5000 5000 0).trace ∧
      (Get (New 1000) produce123 5000 5000 0).cache.current
        = some ⟨123, 5000, 1000, none, .closed⟩ ∧
      (5000 : Int) ≤ 5900 ∧ (5900 : Int) - 5000 ≤ 1000) ∧
    (Get (Get (New 1000) produce123 5000 5000 0).cache produce456 5900 5901
        (Get (New 1000) produce123 5000 5000 0).world).out = .returned 123 none :=
  ⟨⟨by decide, by decide, by decide, by decide⟩,
    (freshness_window (New 1000) produce123 produce456 5000 5000 5900 5901 1000 0
      ⟨123, 5000, 1000, none, .closed⟩ (by decide) (by decide) rfl (by decide)
      (by decide)).2.2.2.2.1.trans (by decide)⟩

end cache

namespace cache

/-- The refresh branch with a producer that returns.  In every cache state with a
current record `old`, for every producer `fn` that returns `(v, e)` (with `e` nil
or not), a `Get(fn)` whose `time.Since(old.createdAt)` exceeds `old.cacheFor`
invokes `fn` exactly once, returns exactly `(v, e)`, whatever `old` held, and
leaves as current a newly allocated record with `value = v`, `err = e`,
`createdAt` the reading of `time.Now` (`tNow`) and `cacheFor = old.cacheFor`; the
superseded record stays untouched at its address. -/
theorem refresh_after_expiry {W T E : Type} [Inhabited T] (c : Cache T E)
    (old : record T E) (fn : Fn W T E) (now tNow : Int) (w w₁ : W) (v : T) (e : Option E)
    (hcur : c.current = some old) (hfn : fn w = (.ret v e, w₁))
    (hstale : Since now old.createdAt > old.cacheFor) :
    (Get c fn now tNow w).trace.count Event.call = 1 ∧
    (Get c fn now tNow w).world = w₁ ∧
    (Get c fn now tNow w).out = .returned v e ∧
    (Get c fn now tNow w).cache.current
      = some { value := v, err := e, createdAt := tNow, cacheFor := old.cacheFor,
               ready := .closed } ∧
    (Get c fn now tNow w).cache.cache ≠ c.cache ∧
    (Get c fn now tNow w).cache.deref c.cache = some old := by
  have hlt : c.cache < c.heap.length := by
    unfold Cache.current Cache.deref at hcur
    by_contra h
    rw [List.getElem?_eq_none (not_lt.mp h)] at hcur
    exact absurd hcur (by simp)
  rw [Get_stale_ret tNow hcur hstale hfn]
  refine ⟨by simp [List.count_cons], rfl, rfl, ?_, ?_, ?_⟩
  · rw [current_set_append]; rfl
  · exact (Nat.ne_of_lt hlt).symm
  · unfold Cache.current Cache.deref at hcur
    simp only [Cache.deref]
    rw [List.getElem?_set_ne (Nat.ne_of_lt hlt).symm, List.getElem?_append_left hlt]
    exact hcur

theorem refresh_after_expiry_witness :
    (Get (Get (New 1000) produce123 5000 5000 0).cache produceErr 6001 6002 1).out
      = .returned 7 (some 9) :=
  (refresh_after_expiry (Get (New 1000) produce123 5000 5000 0).cache
    ⟨123, 5000, 1000, none, .closed⟩ produceErr 6001 6002 1 2 7 (some 9)
    (by decide) rfl (by decide)).2.2.1

/-- C2, evaluated at `New(math.MaxInt64)` with a clock reading `now` more than
the maximum Duration after the zero time (as every present-day reading is).  The
premises of the claim hold: the current record is the placeholder, with
`createdAt = 0` and `cacheFor = maxDuration`, the producer returns `(v, e)`, and
`now - createdAt > cacheFor`.  But `time.Since` saturates at `maxDuration`, which
is not greater than `cacheFor`: `Get` invokes no producer, does not return
`(v, e)` (it blocks on the nil gate) and installs no record. -/
theorem expired_by_subtraction_not_refreshed {W T E : Type} [Inhabited T] (fn : Fn W T E)
    (now tNow : Int) (w w₁ : W) (v : T) (e : Option E)
    (hfn : fn w = (.ret v e, w₁)) (hnow : now - 0 > maxDuration) :
    (New maxDuration : Cache T E).current = some ⟨default, 0, maxDuration, none, .nil⟩ ∧
    (fn w).1 = .ret v e ∧
    now - (0 : Int) > maxDuration ∧
    Since now 0 = maxDuration ∧
    (Get (New maxDuration : Cache T E) fn now tNow w).trace.count Event.call = 0 ∧
    (Get (New maxDuration : Cache T E) fn now tNow w).world = w ∧
    (Get (New maxDuration : Cache T E) fn now tNow w).out = .blocked ∧
    (Get (New maxDuration : Cache T E) fn now tNow w).out ≠ .returned v e ∧
    (Get (New maxDuration : Cache T E) fn now tNow w).cache = New maxDuration := by
  have h := Get_fresh_not_closed (New maxDuration : Cache T E) fn now tNow w
    (r := ⟨default, 0, maxDuration, none, .nil⟩) rfl (Since_le_maxDuration now 0)
    (by simp)
  have hsat : Since now 0 = maxDuration := by
    unfold maxDuration at hnow
    unfold Since Time.Sub maxDuration minDuration
    split_ifs
    omega
  rw [h]
  exact ⟨rfl, by rw [hfn], hnow, hsat, by simp [New], rfl, rfl, by simp, rfl⟩

theorem expired_by_subtraction_not_refreshed_witness :
    (63900000000000000000 : Int) - 0 > maxDuration ∧
    (Get (New maxDuration) produce123 63900000000000000000 63900000000000000000 0).out
      = .blocked ∧
    (Get (New maxDuration) produce123 63900000000000000000 63900000000000000000 0).trace.count
      Event.call = 0 :=
  ⟨by decide,
    (expired_by_subtraction_not_refreshed produce123 63900000000000000000
      63900000000000000000 0 1 123 none rfl (by decide)).2.2.2.2.2.2.1,
    (expired_by_subtraction_not_refreshed produce123 63900000000000000000
      63900000000000000000 0 1 123 none rfl (by decide)).2.2.2.2.1⟩

/-- C3, evaluated at `New(math.MaxInt64)`: whatever the clock reads, the first
`Get` finds `time.Since(createdAt) ≤ maxDuration = cacheFor`, so it takes the
wait branch and blocks on the placeholder's nil gate without invoking its
producer. -/
theorem first_get_on_new_maxDuration_blocks {W T E : Type} [Inhabited T]
    (fn : Fn W T E) (tSince tNow : Int) (w : W) :
    (Get (New maxDuration : Cache T E) fn tSince tNow w).out = .blocked ∧
    (Get (New maxDuration : Cache T E) fn tSince tNow w).trace
      = [.lock, .unlock, .blockOn 0] ∧
    Event.call ∉ (Get (New maxDuration : Cache T E) fn tSince tNow w).trace ∧
    (Get (New maxDuration : Cache T E) fn tSince tNow w).world = w ∧
    (Get (New maxDuration : Cache T E) fn tSince tNow w).cache = New maxDuration := by
  have h := Get_fresh_not_closed (New maxDuration : Cache T E) fn tSince tNow w
    (r := ⟨default, 0, maxDuration, none, .nil⟩) rfl (Since_le_maxDuration tSince 0)
    (by simp)
  rw [h]
  exact ⟨rfl, rfl, by simp [New], rfl, rfl⟩

end cache

namespace cache

/-! ### `Clear` -/

/-- `Clear` on a cache whose pointer is valid. -/
theorem Clear_eq {T E : Type} [Inhabited T] {c : Cache T E} {r : record T E}
    (hcur : c.current = some r) :
    Clear c = ⟨⟨c.heap.set c.cache { r with value := default, cacheFor := 0 }, c.cache⟩,
      false, [.lock, .unlock]⟩ := by
  unfold Cache.current at hcur
  simp [Clear, hcur]

theorem current_lt {T E : Type} {c : Cache T E} {r : record T E}
    (hcur : c.current = some r) : c.cache < c.heap.length := by
  unfold Cache.current Cache.deref at hcur
  by_contra h
  rw [List.getElem?_eq_none (not_lt.mp h)] at hcur
  exact absurd hcur (by simp)

/-- The current record after `Clear`. -/
theorem Clear_current {T E : Type} [Inhabited T] {c : Cache T E} {r : record T E}
    (hcur : c.current = some r) :
    (Clear c).cache.current = some { r with value := default, cacheFor := 0 } := by
  rw [Clear_eq hcur]
  simp [Cache.current, Cache.deref, current_lt hcur]

/-- A refreshing `Get`, whatever the producer does: the producer is called once,
on the environment `w`, and when it returns `(v, e)` so does `Get`. -/
theorem Get_stale {W T E : Type} [Inhabited T] {c : Cache T E} {old : record T E}
    (fn : Fn W T E) {tSince : Int} (tNow : Int) (w : W)
    (hcur : c.current = some old) (hstale : Since tSince old.createdAt > old.cacheFor) :
    (Get c fn tSince tNow w).trace.count Event.call = 1 ∧
    (Get c fn tSince tNow w).world = (fn w).2 ∧
    (∀ v e, (fn w).1 = .ret v e → (Get c fn tSince tNow w).out = .returned v e) ∧
    ((fn w).1 = .panics → (Get c fn tSince tNow w).out = .returned default none) ∧
    (∃ r, (Get c fn tSince tNow w).cache.current = some r ∧ r.createdAt = tNow ∧
      r.cacheFor = old.cacheFor ∧ r.ready = .closed) := by
  rcases hf : fn w with ⟨o, w₁⟩
  cases o with
  | ret v e =>
    rw [Get_stale_ret tNow hcur hstale hf]
    refine ⟨by simp [List.count_cons], rfl, ?_, by simp, ?_⟩
    · intro v' e' h
      simp only [Outcome.ret.injEq] at h
      rw [h.1, h.2]
    · exact ⟨_, current_set_append _ _ _, rfl, rfl, rfl⟩
  | panics =>
    rw [Get_stale_panics tNow hcur hstale hf]
    refine ⟨by simp [List.count_cons], rfl, by simp, by simp, ?_⟩
    exact ⟨_, current_set_append _ _ _, rfl, rfl, rfl⟩

/-- C4, as stated, fails: `Get` returns `(123, nil)` with the clock at `5000`, then
`Clear()`, then `Get` with a producer of `(456, nil)`, the clock still reading
`5000` (not earlier than the record's `createdAt = 5000`): the producer is not
invoked and `Get` returns the cleared record's `(0, nil)`. -/
theorem clear_then_get_same_instant :
    (Get (New 1000) produce123 5000 5000 0).out = .returned 123 none ∧
    ((Get (New 1000) produce123 5000 5000 0).cache.current.map (·.createdAt)) = some 5000 ∧
    Event.call ∉
      (Get (Clear (Get (New 1000) produce123 5000 5000 0).cache).cache
        produce456 5000 5000 1).trace ∧
    (Get (Clear (Get (New 1000) produce123 5000 5000 0).cache).cache
        produce456 5000 5000 1).world = 1 ∧
    (Get (Clear (Get (New 1000) produce123 5000 5000 0).cache).cache
        produce456 5000 5000 1).out = .returned 0 none := by
  decide

/-- C4, amended.  For every cache state reached by a completed `Get` (one that
returned), the state has a current record `cur`, and the `Get(fn)` that follows
`Clear()` with a clock reading strictly later than `cur.createdAt` invokes `fn`
exactly once and, when `fn` returns `(v, e)`, returns `(v, e)`: nothing previously
cached.  No other condition on the time between the calls is needed. -/
theorem clear_then_get_later {W T E : Type} [Inhabited T] (c₀ : Cache T E)
    (f fn : Fn W T E) (s₀ t₀ : Int) (w₀ : W) (v₀ : T) (e₀ : Option E)
    (hdone : (Get c₀ f s₀ t₀ w₀).out = .returned v₀ e₀) :
    ∃ cur, (Get c₀ f s₀ t₀ w₀).cache.current = some cur ∧
      ∀ (tSince tNow : Int) (w : W), cur.createdAt < tSince →
        (Get (Clear (Get c₀ f s₀ t₀ w₀).cache).cache fn tSince tNow w).trace.count
          Event.call = 1 ∧
        (Get (Clear (Get c₀ f s₀ t₀ w₀).cache).cache fn tSince tNow w).world = (fn w).2 ∧
        ∀ v e, (fn w).1 = .ret v e →
          (Get (Clear (Get c₀ f s₀ t₀ w₀).cache).cache fn tSince tNow w).out
            = .returned v e := by
  have hex : ∃ cur, (Get c₀ f s₀ t₀ w₀).cache.current = some cur := by
    cases hc : c₀.current with
    | none =>
      unfold Cache.current at hc
      simp [Get, hc] at hdone
    | some old =>
      by_cases hs : Since s₀ old.createdAt > old.cacheFor
      · obtain ⟨_, _, _, _, r, hr, _⟩ := Get_stale f t₀ w₀ hc hs
        exact ⟨r, hr⟩
      · refine ⟨old, ?_⟩
        unfold Cache.current at hc
        by_cases hr : old.ready.recv <;> simp [Get, hc, hs, hr, Cache.current]
  obtain ⟨cur, hcur⟩ := hex
  refine ⟨cur, hcur, ?_⟩
  intro tSince tNow w hlt
  have hcl := Clear_current hcur
  have hstale : Since tSince ({ cur with value := default, cacheFor := 0 } : record T E).createdAt
      > ({ cur with value := default, cacheFor := 0 } : record T E).cacheFor :=
    (Since_pos_iff tSince cur.createdAt).mpr hlt
  obtain ⟨h₁, h₂, h₃, _, _⟩ := Get_stale fn tNow w hcl hstale
  exact ⟨h₁, h₂, h₃⟩

theorem clear_then_get_later_witness :
    (Get (New 1000) produce123 5000 5000 0).out = .returned 123 none ∧
    (Get (Clear (Get (New 1000) produce123 5000 5000 0).cache).cache
        produce456 5001 5001 1).out = .returned 456 none := by
  refine ⟨by decide, ?_⟩
  obtain ⟨cur, hcur, h⟩ := clear_then_get_later (New 1000) produce123 produce456
    5000 5000 0 123 none (by decide)
  have hc : cur.createdAt = 5000 := by
    have : (Get (New 1000) produce123 5000 5000 0).cache.current
        = some ⟨123, 5000, 1000, none, .closed⟩ := by decide
    rw [this] at hcur
    simp only [Option.some.injEq] at hcur
    rw [← hcur]
  exact (h 5001 5001 1 (by rw [hc]; decide)).2.2 456 none rfl

end cache

namespace cache

/-- Calls of `Get` made while the current record is fresh and its gate closed all
return the record's value and error, call nothing and change nothing. -/
theorem runGets_fresh {W T E : Type} [Inhabited T] (c : Cache T E) (r : record T E) (w : W)
    (hcur : c.current = some r) (hready : r.ready = .closed) (ks : List (Call W T E))
    (hwin : ∀ k ∈ ks, Since k.tSince r.createdAt ≤ r.cacheFor) :
    ∀ res ∈ runGets c w ks,
      res.out = .returned r.value r.err ∧ Event.call ∉ res.trace ∧ res.world = w ∧
        res.cache = c := by
  induction ks with
  | nil => intro res h; simp [runGets] at h
  | cons k ks ih =>
    have hk := Get_fresh_closed c k.fn k.tSince k.tNow w hcur
      (hwin k (List.mem_cons_self _ _)) hready
    intro res h
    simp only [runGets, hk, List.mem_cons] at h
    rcases h with h | h
    · subst h
      simp
    · exact ih (fun k' hk' => hwin k' (List.mem_cons_of_mem _ hk')) res h

/-- C5 (error caching).  Let a `Get(f)` refresh a cache whose current record has
`cacheFor = ttl` (an `int64` duration), reading `time.Now` at `t₁`, with `f`
returning `(v, e)`, `e` non-nil.  Then, with no `Clear` in between, every `Get` of
any later sequence of `Get` calls whose clock readings `t₂` satisfy `t₂ - t₁ ≤ ttl`
(whatever their producers) returns exactly `(v, e)`, invokes no producer (no call
event, producers' environment unchanged) and leaves the cache as the refresh
left it. -/
theorem error_caching {W T E : Type} [Inhabited T] (c : Cache T E) (old : record T E)
    (f : Fn W T E) (s₁ t₁ ttl : Int) (w w₁ : W) (v : T) (e : E)
    (ks : List (Call W T E))
    (hcur : c.current = some old) (httl : old.cacheFor = ttl) (hdur : isDuration ttl)
    (hstale : Since s₁ old.createdAt > old.cacheFor)
    (hf : f w = (.ret v (some e), w₁))
    (hwin : ∀ k ∈ ks, k.tSince - t₁ ≤ ttl) :
    (Get c f s₁ t₁ w).out = .returned v (some e) ∧
    ∀ res ∈ runGets (Get c f s₁ t₁ w).cache (Get c f s₁ t₁ w).world ks,
      res.out = .returned v (some e) ∧ Event.call ∉ res.trace ∧ res.world = w₁ ∧
        res.cache = (Get c f s₁ t₁ w).cache := by
  rw [Get_stale_ret t₁ hcur hstale hf]
  refine ⟨rfl, ?_⟩
  exact runGets_fresh _ _ w₁ (current_set_append _ _ _) rfl ks (by
    intro k hk
    have h := hwin k hk
    have hd := hdur
    simp only [freshRecord, httl]
    unfold isDuration minDuration maxDuration at hd
    unfold Since Time.Sub maxDuration minDuration
    split_ifs <;> omega)

theorem error_caching_witness :
    isDuration 1000 ∧
    ∀ res ∈ runGets (Get (New 1000) produceErr 5000 5000 0).cache
        (Get (New 1000) produceErr 5000 5000 0).world
        [⟨produce123, 5000, 5000⟩, ⟨produce456, 5500, 5501⟩, ⟨producePanic, 6000, 6000⟩],
      res.out = .returned 7 (some 9) ∧ Event.call ∉ res.trace ∧ res.world = 1 ∧
        res.cache = (Get (New 1000) produceErr 5000 5000 0).cache :=
  ⟨by decide,
    (error_caching (New 1000) ⟨0, 0, 1000, none, .nil⟩ produceErr 5000 5000 1000 0 1 7 9
      [⟨produce123, 5000, 5000⟩, ⟨produce456, 5500, 5501⟩, ⟨producePanic, 6000, 6000⟩]
      rfl rfl (by decide) (by decide) rfl (by decide)).2⟩

/-- C6, as stated, fails: on a stale record (the placeholder of `New(1000)`), `Get`
with a producer that panics closes the gate of the record it installed and then
returns normally, with `(0, nil)`: the deferred function recovers the panic and
does not raise it again. -/
theorem panic_does_not_propagate :
    (Get (New 1000) producePanic 5000 5000 0).trace
      = [.lock, .install 1, .unlock, .call, .recovered, .close 1] ∧
    (Get (New 1000) producePanic 5000 5000 0).out = .returned 0 none ∧
    (Get (New 1000) producePanic 5000 5000 0).out ≠ .panicked := by
  decide

/-- C6, amended.  For every producer that panics during a refreshing `Get`, the
function deferred by `Get` recovers the panic and closes the gate of the record
`Get` installed (one close, after the producer's call, and the record's gate is
closed afterwards), so waiters are unblocked; `Get` then returns normally with
the zero value and a nil error: the panic does not leave `Get`. -/
theorem panic_closes_gate_and_returns {W T E : Type} [Inhabited T] (c : Cache T E)
    (old : record T E) (fn : Fn W T E) (tSince tNow : Int) (w w₁ : W)
    (hcur : c.current = some old) (hstale : Since tSince old.createdAt > old.cacheFor)
    (hfn : fn w = (.panics, w₁)) :
    (Get c fn tSince tNow w).trace
      = [.lock, .install c.heap.length, .unlock, .call, .recovered, .close c.heap.length] ∧
    (Get c fn tSince tNow w).cache.cache = c.heap.length ∧
    (Get c fn tSince tNow w).cache.current
      = some { value := default, createdAt := tNow, cacheFor := old.cacheFor, err := none,
               ready := .closed } ∧
    (Get c fn tSince tNow w).out = .returned default none := by
  rw [Get_stale_panics tNow hcur hstale hfn]
  exact ⟨rfl, rfl, current_set_append _ _ _, rfl⟩

theorem panic_closes_gate_and_returns_witness :
    (Get (New 1000) producePanic 5000 5000 0).cache.current
      = some ⟨0, 5000, 1000, none, .closed⟩ :=
  (panic_closes_gate_and_returns (New 1000) ⟨0, 0, 1000, none, .nil⟩ producePanic
    5000 5000 0 1 rfl (by decide) rfl).2.2.1

/-- C9 (effect and frame of `Clear`).  In every cache state with a current record
`r`, `Clear()` does not panic, performs only `lock` and `unlock` (no producer
call, no receive on a gate, no close), keeps `c.cache` pointing at the same
address and the heap at the same size, leaves every other record as it was, and
makes the current record `r` with `value` the zero value and `cacheFor = 0`:
`createdAt`, `err` and `ready` are those of `r`. -/
theorem clear_effect_and_frame {T E : Type} [Inhabited T] (c : Cache T E) (r : record T E)
    (hcur : c.current = some r) :
    (Clear c).panicked = false ∧
    (Clear c).trace = [.lock, .unlock] ∧
    (Clear c).cache.cache = c.cache ∧
    (Clear c).cache.heap.length = c.heap.length ∧
    (∀ p, p ≠ c.cache → (Clear c).cache.deref p = c.deref p) ∧
    (Clear c).cache.current
      = some { value := default, cacheFor := 0, createdAt := r.createdAt, err := r.err,
               ready := r.ready } := by
  have hcl := Clear_current hcur
  rw [Clear_eq hcur] at hcl ⊢
  refine ⟨rfl, rfl, rfl, by simp, ?_, hcl⟩
  intro p hp
  simp only [Cache.deref]
  exact List.getElem?_set_ne (Ne.symm hp)

theorem clear_effect_and_frame_witness :
    (Clear (Get (New 1000) produceErr 5000 5000 0).cache).cache.current
      = some ⟨0, 5000, 0, some 9, .closed⟩ :=
  (clear_effect_and_frame (Get (New 1000) produceErr 5000 5000 0).cache
    ⟨7, 5000, 1000, some 9, .closed⟩ (by decide)).2.2.2.2.2

end cache

namespace cache

/-! ### Sequences of calls -/

/-- Whatever branch `Get` takes, the cache keeps a current record and that
record has the `cacheFor` of the record that was current before. -/
theorem Get_current_cacheFor {W T E : Type} [Inhabited T] {c : Cache T E} {old : record T E}
    (fn : Fn W T E) (tSince tNow : Int) (w : W) (hcur : c.current = some old) :
    ∃ r, (Get c fn tSince tNow w).cache.current = some r ∧ r.cacheFor = old.cacheFor := by
  by_cases hs : Since tSince old.createdAt > old.cacheFor
  · obtain ⟨_, _, _, _, r, hr, _, hc, _⟩ := Get_stale fn tNow w hcur hs
    exact ⟨r, hr, hc⟩
  · refine ⟨old, ?_, rfl⟩
    have hcur' := hcur
    unfold Cache.current at hcur
    by_cases hr : old.ready.recv <;> simp [Get, hcur, hs, hr, hcur']

/-- A call keeps a current record in place. -/
theorem apply_current {W T E : Type} [Inhabited T] (s : Cache T E × W) (op : Op W T E)
    (h : ∃ cur, s.1.current = some cur) : ∃ cur, (Op.apply s op).1.current = some cur := by
  obtain ⟨cur, hcur⟩ := h
  cases op with
  | get fn tSince tNow =>
    obtain ⟨r, hr, _⟩ := Get_current_cacheFor fn tSince tNow s.2 hcur
    exact ⟨r, hr⟩
  | clear => exact ⟨_, Clear_current hcur⟩

/-- Once the current record has `cacheFor = 0`, a call leaves a current record
with `cacheFor = 0`. -/
theorem apply_cacheFor_zero {W T E : Type} [Inhabited T] (s : Cache T E × W) (op : Op W T E)
    (h : ∃ cur, s.1.current = some cur ∧ cur.cacheFor = 0) :
    ∃ cur, (Op.apply s op).1.current = some cur ∧ cur.cacheFor = 0 := by
  obtain ⟨cur, hcur, h0⟩ := h
  cases op with
  | get fn tSince tNow =>
    obtain ⟨r, hr, hc⟩ := Get_current_cacheFor fn tSince tNow s.2 hcur
    exact ⟨r, hr, hc.trans h0⟩
  | clear => exact ⟨_, Clear_current hcur, rfl⟩

theorem run_current {W T E : Type} [Inhabited T] (ops : List (Op W T E)) :
    ∀ s : Cache T E × W, (∃ cur, s.1.current = some cur) →
      ∃ cur, (run s ops).1.current = some cur := by
  induction ops with
  | nil => intro s h; exact h
  | cons op ops ih =>
    intro s h
    exact ih (Op.apply s op) (apply_current s op h)

theorem run_cacheFor_zero {W T E : Type} [Inhabited T] (ops : List (Op W T E)) :
    ∀ s : Cache T E × W, (∃ cur, s.1.current = some cur ∧ cur.cacheFor = 0) →
      ∃ cur, (run s ops).1.current = some cur ∧ cur.cacheFor = 0 := by
  induction ops with
  | nil => intro s h; exact h
  | cons op ops ih =>
    intro s h
    exact ih (Op.apply s op) (apply_cacheFor_zero s op h)

theorem run_append {W T E : Type} [Inhabited T] (s : Cache T E × W)
    (ops₁ ops₂ : List (Op W T E)) : run s (ops₁ ++ ops₂) = run (run s ops₁) ops₂ := by
  simp [run, List.foldl_append]

/-- C8 (the TTL is not restorable after `Clear`).  Take `New(ttl)`, any calls of
`Get` and `Clear` (`before`), one `Clear()`, then any further calls of `Get` and
`Clear` (`after`).  The cache then has a current record whose `cacheFor` is `0`,
and every `Get` made next with a clock reading strictly greater than that
record's `createdAt` invokes its producer exactly once (returning what the
producer returns). -/
theorem ttl_not_restorable_after_clear {W T E : Type} [Inhabited T] (ttl : Int) (w₀ : W)
    (before after : List (Op W T E)) :
    ∃ cur, (run (New ttl, w₀) (before ++ Op.clear :: after)).1.current = some cur ∧
      cur.cacheFor = 0 ∧
      ∀ (fn : Fn W T E) (tSince tNow : Int) (w : W), cur.createdAt < tSince →
        (Get (run (New ttl, w₀) (before ++ Op.clear :: after)).1 fn tSince tNow w).trace.count
          Event.call = 1 ∧
        (Get (run (New ttl, w₀) (before ++ Op.clear :: after)).1 fn tSince tNow w).world
          = (fn w).2 ∧
        ∀ v e, (fn w).1 = .ret v e →
          (Get (run (New ttl, w₀) (before ++ Op.clear :: after)).1 fn tSince tNow w).out
            = .returned v e := by
  have h₁ : ∃ cur, (run ((New ttl : Cache T E), w₀) before).1.current = some cur :=
    run_current before _ ⟨_, rfl⟩
  have h₂ : ∃ cur, (Op.apply (run ((New ttl : Cache T E), w₀) before) Op.clear).1.current
      = some cur ∧ cur.cacheFor = 0 := by
    obtain ⟨cur, hcur⟩ := h₁
    exact ⟨_, Clear_current hcur, rfl⟩
  have h₃ := run_cacheFor_zero after _ h₂
  have hrun : run ((New ttl : Cache T E), w₀) (before ++ Op.clear :: after)
      = run (Op.apply (run (New ttl, w₀) before) Op.clear) after := by
    rw [run_append]; rfl
  rw [hrun]
  obtain ⟨cur, hcur, h0⟩ := h₃
  refine ⟨cur, hcur, h0, ?_⟩
  intro fn tSince tNow w hlt
  have hstale : Since tSince cur.createdAt > cur.cacheFor := by
    rw [h0]; exact (Since_pos_iff tSince cur.createdAt).mpr hlt
  obtain ⟨a, b, c, _, _⟩ := Get_stale fn tNow w hcur hstale
  exact ⟨a, b, c⟩

/-- C10, as stated, fails: on `NewForTesting()`, two `Get` calls made with the
clock reading `5000` both times (non-decreasing readings).  The first one
refreshes; the second one finds `elapsed = 0`, which is not greater than
`cacheFor = 0`, so it does not invoke its producer (of `456`) and is served
`(123, nil)` from the cache. -/
theorem newForTesting_same_instant :
    NonDecreasing 0 [(⟨produce123, 5000, 5000⟩ : Call Nat Nat Nat), ⟨produce456, 5000, 5000⟩] ∧
    (runGets NewForTesting 0 [⟨produce123, 5000, 5000⟩, ⟨produce456, 5000, 5000⟩]).map
        (fun r => (r.out, r.trace.count Event.call, r.world))
      = [(.returned 123 none, 1, 1), (.returned 123 none, 0, 1)] ∧
    ¬ EveryGetRefreshes NewForTesting 0
        [⟨produce123, 5000, 5000⟩, ⟨produce456, 5000, 5000⟩] := by
  refine ⟨by decide, by decide, ?_⟩
  intro h
  have h2 := h.2.2.2.1
  revert h2
  decide

/-- Calls with strictly increasing clock readings on a cache whose current
record has `cacheFor = 0` all refresh. -/
theorem everyGetRefreshes_of_zero {W T E : Type} [Inhabited T] (ks : List (Call W T E)) :
    ∀ (c : Cache T E) (w : W) (cur : record T E), c.current = some cur → cur.cacheFor = 0 →
      StrictlyLater cur.createdAt ks → EveryGetRefreshes c w ks := by
  induction ks with
  | nil => intro c w cur _ _ _; trivial
  | cons k ks ih =>
    intro c w cur hcur h0 hlater
    have hstale : Since k.tSince cur.createdAt > cur.cacheFor := by
      rw [h0]; exact (Since_pos_iff k.tSince cur.createdAt).mpr hlater.1
    obtain ⟨a, b, c', _, r, hr, hcr, hcf, _⟩ := Get_stale k.fn k.tNow w hcur hstale
    refine ⟨a, b, c', ?_⟩
    exact ih _ _ r hr (hcf.trans h0) (by rw [hcr]; exact hlater.2)

/-- C10, amended.  `NewForTesting()` builds the same state as `New(0)`, and for
every finite sequence of `Get` calls on it made at strictly increasing clock
readings (the first one later than the zero time, each later one strictly after
the `time.Now` of the call before), every `Get` invokes its own producer, exactly
once, and returns what that producer returned. -/
theorem newForTesting_always_expired {W T E : Type} [Inhabited T] (ks : List (Call W T E))
    (w : W) (hlater : StrictlyLater 0 ks) :
    (NewForTesting : Cache T E) = New 0 ∧ EveryGetRefreshes (NewForTesting : Cache T E) w ks :=
  ⟨rfl, everyGetRefreshes_of_zero ks NewForTesting w ⟨default, 0, 0, none, .nil⟩ rfl rfl hlater⟩

theorem newForTesting_always_expired_witness :
    StrictlyLater 0 [(⟨produce123, 5000, 5000⟩ : Call Nat Nat Nat), ⟨produce456, 5001, 5001⟩] ∧
    EveryGetRefreshes NewForTesting 0 [⟨produce123, 5000, 5000⟩, ⟨produce456, 5001, 5001⟩] :=
  ⟨by decide,
    (newForTesting_always_expired [⟨produce123, 5000, 5000⟩, ⟨produce456, 5001, 5001⟩] 0
      (by decide)).2⟩

end cache

namespace cache

/-! ### Concurrent calls: the invariant is kept by every step -/

theorem forall_set_iff {α : Type} (l : List α) (i : Nat) (x a : α) (P : Nat → α → Prop)
    (hi : l[i]? = some a) :
    (∀ j b, (l.set i x)[j]? = some b → P j b) ↔
      P i x ∧ ∀ j b, j ≠ i → l[j]? = some b → P j b := by
  have hlt : i < l.length := by
    by_contra h
    rw [List.getElem?_eq_none (not_lt.mp h)] at hi
    exact absurd hi (by simp)
  constructor
  · intro h
    refine ⟨h i x (by simp [List.getElem?_set, hlt]), ?_⟩
    intro j b hj hb
    exact h j b (by rw [List.getElem?_set_ne (Ne.symm hj)]; exact hb)
  · rintro ⟨h₁, h₂⟩ j b hb
    by_cases hj : j = i
    · subst hj
      simp [List.getElem?_set, hlt] at hb
      subst hb
      exact h₁
    · rw [List.getElem?_set_ne (Ne.symm hj)] at hb
      exact h₂ j b hj hb

end cache

namespace cache

theorem getElem?_some_lt {α : Type} {l : List α} {i : Nat} {a : α} (h : l[i]? = some a) :
    i < l.length := by
  by_contra hn
  rw [List.getElem?_eq_none (not_lt.mp hn)] at h
  exact absurd h (by simp)

/-- Assembling the invariant after goroutine `i` moved. -/
theorem Inv_of_step {W T E : Type} [Inhabited T] {h₀ : List (record T E)} {p₀ : Nat}
    {ttl : Int} {s : System W T E} {i : Nat} {th : Goroutine W T E}
    (hthi : s.threads[i]? = some th) {holder refresher : Option Nat}
    (hth : ∀ j b, s.threads[j]? = some b →
      Goroutine.ok h₀.length p₀ ttl holder refresher s.mem j b)
    (pc : Pc T E) (m : Shared W T E) (holder₁ refresher₁ : Option Nat)
    (hm : m.ok h₀ p₀ ttl holder₁ refresher₁ s.threads.length)
    (hown : Goroutine.ok h₀.length p₀ ttl holder₁ refresher₁ m i ⟨th.fn, pc⟩)
    (hothers : ∀ j b, j ≠ i → Goroutine.ok h₀.length p₀ ttl holder refresher s.mem j b →
      Goroutine.ok h₀.length p₀ ttl holder₁ refresher₁ m j b) :
    System.Inv h₀ p₀ ttl ⟨m, s.threads.set i ⟨th.fn, pc⟩⟩ := by
  refine ⟨holder₁, refresher₁, ?_, ?_⟩
  · simpa using hm
  · show ∀ j b, (s.threads.set i ⟨th.fn, pc⟩)[j]? = some b → _
    rw [forall_set_iff s.threads i ⟨th.fn, pc⟩ th
      (fun j b => Goroutine.ok h₀.length p₀ ttl holder₁ refresher₁ m j b) hthi]
    exact ⟨hown, fun j b hj hb => hothers j b hj (hth j b hb)⟩

/-- A step that leaves heap, cache pointer and call list alone keeps what holds
at every program point. -/
theorem Pc.ok_of_same {W T E : Type} [Inhabited T] {n₀ p₀ : Nat} {ttl : Int} {m m₁ : Shared W T E} (hh : m₁.heap = m.heap) (hc : m₁.cache = m.cache)
    (hk : m₁.calls = m.calls) (j : Nat) (pc : Pc T E) (h : pc.ok n₀ p₀ ttl m j) :
    pc.ok n₀ p₀ ttl m₁ j := by
  cases pc <;> simp_all [Pc.ok, Shared.pending]

/-- While the gate is not closed, a step that keeps the cache pointer or moves it
to `n₀` keeps what holds of the goroutines that neither hold the mutex nor
refresh. -/
theorem Pc.ok_of_not_crit {W T E : Type} [Inhabited T] {n₀ p₀ : Nat} {ttl : Int} {m m₁ : Shared W T E} (hg : m.gateNotClosed n₀)
    (hc : m₁.cache = n₀ ∨ m₁.cache = m.cache) (j : Nat) (pc : Pc T E)
    (hcrit : pc.crit = false) (hrefr : pc.refr = false) (h : pc.ok n₀ p₀ ttl m j) :
    pc.ok n₀ p₀ ttl m₁ j := by
  cases pc <;> simp only [Pc.ok, Pc.crit, Pc.refr, Bool.true_eq_false, Bool.false_eq_true,
    reduceCtorEq] at hcrit hrefr h ⊢
  · exact ⟨h.1, by rcases hc with hc | hc; exact hc; rw [hc]; exact h.2⟩
  · obtain ⟨_, _, rec, hr, hcl⟩ := h
    exact absurd hcl (hg rec hr)
  · obtain ⟨_, rec, hr, hcl, _⟩ := h
    exact absurd hcl (hg rec hr)

/-- While the gate is not closed, a step that keeps the cache pointer and the
size of the heap keeps what holds of the goroutines that do not refresh. -/
theorem Pc.ok_of_not_refr {W T E : Type} [Inhabited T] {n₀ p₀ : Nat} {ttl : Int} {m m₁ : Shared W T E} (hg : m.gateNotClosed n₀)
    (hc : m₁.cache = m.cache) (hl : m₁.heap.length = m.heap.length) (j : Nat) (pc : Pc T E)
    (hrefr : pc.refr = false) (h : pc.ok n₀ p₀ ttl m j) :
    pc.ok n₀ p₀ ttl m₁ j := by
  cases pc <;> simp only [Pc.ok, Pc.refr, Bool.true_eq_false, Bool.false_eq_true,
    reduceCtorEq] at hrefr h ⊢
  · exact hc ▸ h
  · rw [hc]; exact h
  · rw [hc, hl]; exact h
  · rw [hc]; exact h
  · rw [hc]; exact h
  · obtain ⟨_, _, rec, hr, hcl⟩ := h
    exact absurd hcl (hg rec hr)
  · obtain ⟨_, rec, hr, hcl, _⟩ := h
    exact absurd hcl (hg rec hr)

end cache

namespace cache

theorem System.step_eq {W T E : Type} [Inhabited T] {s s₁ : System W T E} {i : Nat} {t : Int}
    (h : s.step i t = some s₁) :
    ∃ th pc m, s.threads[i]? = some th ∧ Pc.step i th.fn t s.mem th.pc = some (pc, m) ∧
      s₁ = ⟨m, s.threads.set i ⟨th.fn, pc⟩⟩ := by
  unfold System.step at h
  cases hth : s.threads[i]? with
  | none => simp [hth] at h
  | some th =>
    simp only [hth] at h
    cases hp : Pc.step i th.fn t s.mem th.pc with
    | none => simp [hp] at h
    | some x =>
      obtain ⟨pc, m⟩ := x
      simp only [hp, Option.some.injEq] at h
      exact ⟨th, pc, m, rfl, hp, h.symm⟩

/-- Every step of a goroutine keeps the invariant. -/
theorem System.Inv.preserved {W T E : Type} [Inhabited T] {h₀ : List (record T E)} {p₀ : Nat}
    {old : record T E} {s s₁ : System W T E}
    (hp₀ : h₀[p₀]? = some old) (hinv : s.Inv h₀ p₀ old.cacheFor) (i : Nat) (t : Int)
    (hstale : Since t old.createdAt > old.cacheFor)
    (hwin : ∀ rec, s.mem.cache = h₀.length → s.mem.heap[h₀.length]? = some rec →
      Since t rec.createdAt ≤ old.cacheFor)
    (hstep : s.step i t = some s₁) : s₁.Inv h₀ p₀ old.cacheFor := by
  obtain ⟨th, pc, m, hthi, hpcstep, rfl⟩ := System.step_eq hstep
  obtain ⟨holder, refresher, hm, hth⟩ := hinv
  obtain ⟨hok, hcrit, hrefr⟩ := hth i th hthi
  have hin : i < s.threads.length := getElem?_some_lt hthi
  have hp₀lt : p₀ < h₀.length := getElem?_some_lt hp₀
  have hne : p₀ ≠ h₀.length := Nat.ne_of_lt hp₀lt
  obtain ⟨hlen₁, hlen₂, hpre, hcache, hcur, hgate, hnone, hinst, hcalls, hmu, hhold, href⟩ := hm
  have hcurrent : ∃ rec, s.mem.heap[s.mem.cache]? = some rec ∧ rec.cacheFor = old.cacheFor ∧
      ((s.mem.cache = p₀ ∧ rec = old) ∨ s.mem.cache = h₀.length) := by
    rcases hcache with hc | hc
    · exact ⟨old, by rw [hc, hpre p₀ hp₀lt]; exact hp₀, rfl, Or.inl ⟨hc, rfl⟩⟩
    · obtain ⟨rec, h1, h2⟩ := hcur hc
      exact ⟨rec, by rw [hc]; exact h1, h2, Or.inr hc⟩
  cases hpc : th.pc with
  | lock =>
    rw [hpc] at hpcstep hok hcrit hrefr
    simp only [Pc.step] at hpcstep
    by_cases hlocked : s.mem.mu = true
    · simp [hlocked] at hpcstep
    · simp only [hlocked, Bool.false_eq_true, ↓reduceIte, Option.some.injEq, Prod.mk.injEq]
        at hpcstep
      obtain ⟨rfl, rfl⟩ := hpcstep
      have hnoholder : holder = none := by
        by_contra hne
        exact hlocked (hmu.mpr hne)
      apply Inv_of_step hthi hth _ _ (some i) refresher
      · refine ⟨hlen₁, hlen₂, hpre, hcache, hcur, hgate, hnone, ?_, hcalls, by simp,
          by intro j hj; simp only [Option.some.injEq] at hj; exact hj ▸ hin, href⟩
        intro hc
        rcases hinst hc with h | h
        · exact Or.inl h
        · exact absurd hnoholder h.1
      · exact ⟨trivial, by simp [Pc.crit], by simpa [Pc.refr] using hrefr⟩
      · intro j b hj hb
        obtain ⟨h1, h2, h3⟩ := hb
        refine ⟨Pc.ok_of_same rfl rfl rfl j b.pc h1, ?_, h3⟩
        rw [h2, hnoholder]
        simp [Ne.symm hj]
  | load =>
    rw [hpc] at hpcstep hok hcrit hrefr
    simp only [Pc.step, Option.some.injEq, Prod.mk.injEq] at hpcstep
    obtain ⟨rfl, rfl⟩ := hpcstep
    apply Inv_of_step hthi hth _ _ holder refresher
    · exact ⟨hlen₁, hlen₂, hpre, hcache, hcur, hgate, hnone, hinst, hcalls, hmu, hhold, href⟩
    · exact ⟨rfl, by simpa [Pc.crit] using hcrit, by simpa [Pc.refr] using hrefr⟩
    · intro j b _ hb
      exact hb
  | since r =>
    rw [hpc] at hpcstep hok hcrit hrefr
    simp only [Pc.ok] at hok
    subst hok
    obtain ⟨rec, hrec, hcf, hcase⟩ := hcurrent
    simp only [Pc.step, hrec, Option.some.injEq, Prod.mk.injEq] at hpcstep
    obtain ⟨rfl, rfl⟩ := hpcstep
    apply Inv_of_step hthi hth _ _ holder refresher
    · exact ⟨hlen₁, hlen₂, hpre, hcache, hcur, hgate, hnone, hinst, hcalls, hmu, hhold, href⟩
    · refine ⟨⟨rfl, ?_, ?_⟩, by simpa [Pc.crit] using hcrit, by simpa [Pc.refr] using hrefr⟩
      · intro hc
        rcases hcase with ⟨_, h⟩ | h
        · rw [h]; exact hstale
        · exact absurd (hc.symm.trans h) hne
      · intro hc
        exact hwin rec hc (by rw [← hc]; exact hrec)
    · intro j b _ hb
      exact hb
  | test r elapsed =>
    rw [hpc] at hpcstep hok hcrit hrefr
    simp only [Pc.ok] at hok
    obtain ⟨rfl, hstl, hfr⟩ := hok
    obtain ⟨rec, hrec, hcf, hcase⟩ := hcurrent
    have hholder : holder = some i := by simpa [Pc.crit] using hcrit
    have hnotref : refresher ≠ some i := by simpa [Pc.refr] using hrefr
    simp only [Pc.step, hrec, hcf] at hpcstep
    by_cases hgt : elapsed > old.cacheFor
    · simp only [hgt, ↓reduceIte, Option.some.injEq, Prod.mk.injEq] at hpcstep
      obtain ⟨rfl, rfl⟩ := hpcstep
      have hc : s.mem.cache = p₀ := by
        rcases hcache with h | h
        · exact h
        · exact absurd (hfr h) (not_le.mpr hgt)
      have hl : s.mem.heap.length = h₀.length := by
        rcases hinst hc with h | ⟨_, h⟩
        · exact h
        · exact absurd (h ▸ hholder) hnotref
      apply Inv_of_step hthi hth _ _ holder refresher
      · exact ⟨hlen₁, hlen₂, hpre, hcache, hcur, hgate, hnone, hinst, hcalls, hmu, hhold, href⟩
      · exact ⟨⟨hc, hc, hl⟩, by simpa [Pc.crit] using hcrit, by simpa [Pc.refr] using hrefr⟩
      · intro j b _ hb
        exact hb
    · simp only [hgt, ↓reduceIte, Option.some.injEq, Prod.mk.injEq] at hpcstep
      obtain ⟨rfl, rfl⟩ := hpcstep
      have hc : s.mem.cache = h₀.length := by
        rcases hcache with h | h
        · exact absurd (hstl h) hgt
        · exact h
      apply Inv_of_step hthi hth _ _ holder refresher
      · exact ⟨hlen₁, hlen₂, hpre, hcache, hcur, hgate, hnone, hinst, hcalls, hmu, hhold, href⟩
      · exact ⟨⟨hc, hc⟩, by simpa [Pc.crit] using hcrit, by simpa [Pc.refr] using hrefr⟩
      · intro j b _ hb
        exact hb
  | alloc r =>
    rw [hpc] at hpcstep hok hcrit hrefr
    simp only [Pc.ok] at hok
    obtain ⟨rfl, hc, hl⟩ := hok
    have hholder : holder = some i := by simpa [Pc.crit] using hcrit
    have hold : s.mem.heap[r]? = some old := by rw [hpre r hp₀lt]; exact hp₀
    have hnoref : refresher = none := (hnone hl).1
    have hnocalls : s.mem.calls = [] := (hnone hl).2
    have hnogate : s.mem.gateNotClosed h₀.length := by
      intro rec hrec
      rw [← hl, List.getElem?_eq_none (le_refl _)] at hrec
      exact absurd hrec (by simp)
    simp only [Pc.step, hold, Option.some.injEq, Prod.mk.injEq] at hpcstep
    obtain ⟨rfl, rfl⟩ := hpcstep
    apply Inv_of_step hthi hth _ _ holder (some i)
    · refine ⟨by simp; omega, by simp; omega, ?_, hcache, ?_, ?_, ?_, ?_, hcalls, hmu, hhold,
        by intro j hj; simp only [Option.some.injEq] at hj; exact hj ▸ hin⟩
      · intro p hp
        rw [← hpre p hp]
        exact List.getElem?_append_left (by omega)
      · intro h
        exact absurd (hc.symm.trans h) hne
      · intro rec hrec
        simp only [← hl, List.getElem?_concat_length, Option.some.injEq] at hrec
        subst hrec
        exact Or.inl ⟨rfl, by simp⟩
      · intro h
        simp at h
        omega
      · intro _
        exact Or.inr ⟨by simp [hholder], hholder⟩
    · refine ⟨⟨hl, hc, ?_, hnocalls⟩, by simpa [Pc.crit] using hcrit, by simp [Pc.refr]⟩
      simp [Shared.pending, ← hl]
    · intro j b hj hb
      obtain ⟨h1, h2, h3⟩ := hb
      have hjc : b.pc.crit = false := by
        cases hb : b.pc.crit
        · rfl
        · rw [hholder] at h2
          exact absurd (Option.some.inj (h2.mp hb)).symm hj
      have hjr : b.pc.refr = false := by
        cases hb : b.pc.refr
        · rfl
        · rw [hnoref] at h3
          exact absurd (h3.mp hb) (by simp)
      refine ⟨?_, h2, ?_⟩
      · apply Pc.ok_of_not_crit hnogate ?_ j b.pc hjc hjr h1
        exact Or.inr rfl
      · simp [hjr, Ne.symm hj]
  | stamp r =>
    rw [hpc] at hpcstep hok hcrit hrefr
    simp only [Pc.ok] at hok
    obtain ⟨rfl, hc, hpend, hnocalls⟩ := hok
    have hholder : holder = some i := by simpa [Pc.crit] using hcrit
    have hrefresher : refresher = some i := by simpa [Pc.refr] using hrefr
    have hlt : h₀.length < s.mem.heap.length := getElem?_some_lt hpend
    have hnogate : s.mem.gateNotClosed h₀.length := by
      intro rec hrec
      rw [hpend] at hrec
      simp only [Option.some.injEq] at hrec
      subst hrec
      simp
    unfold Shared.pending at hpend
    simp only [Pc.step, hpend, Option.some.injEq, Prod.mk.injEq] at hpcstep
    obtain ⟨rfl, rfl⟩ := hpcstep
    apply Inv_of_step hthi hth _ _ holder refresher
    · refine ⟨by simpa using hlen₁, by simpa using hlen₂, ?_, hcache, ?_, ?_, ?_, ?_, hcalls,
        hmu, hhold, href⟩
      · intro p hp
        rw [← hpre p hp]
        exact List.getElem?_set_ne (by omega)
      · intro h
        exact absurd (hc.symm.trans h) hne
      · intro rec hrec
        simp only [List.getElem?_set_self hlt, Option.some.injEq] at hrec
        subst hrec
        exact Or.inl ⟨rfl, by simp [hrefresher]⟩
      · intro h
        simp at h
        omega
      · intro _
        exact Or.inr ⟨by simp [hholder], hholder.trans hrefresher.symm⟩
    · refine ⟨⟨rfl, hc, ⟨t, ?_⟩, hnocalls⟩, by simpa [Pc.crit] using hcrit,
        by simpa [Pc.refr] using hrefr⟩
      simp [Shared.pending, List.getElem?_set_self hlt]
    · intro j b hj hb
      obtain ⟨h1, h2, h3⟩ := hb
      have hjr : b.pc.refr = false := by
        cases hb : b.pc.refr
        · rfl
        · rw [hrefresher] at h3
          exact absurd (Option.some.inj (h3.mp hb)).symm hj
      refine ⟨?_, h2, h3⟩
      apply Pc.ok_of_not_refr hnogate ?_ ?_ j b.pc hjr h1
      · rfl
      · simp
  | install r =>
    rw [hpc] at hpcstep hok hcrit hrefr
    simp only [Pc.ok] at hok
    obtain ⟨rfl, hc, ⟨u, hpend⟩, hnocalls⟩ := hok
    have hholder : holder = some i := by simpa [Pc.crit] using hcrit
    have hrefresher : refresher = some i := by simpa [Pc.refr] using hrefr
    have hlt : h₀.length < s.mem.heap.length := getElem?_some_lt hpend
    have hnogate : s.mem.gateNotClosed h₀.length := by
      intro rec hrec
      rw [hpend] at hrec
      simp only [Option.some.injEq] at hrec
      subst hrec
      simp
    simp only [Pc.step, Option.some.injEq, Prod.mk.injEq] at hpcstep
    obtain ⟨rfl, rfl⟩ := hpcstep
    apply Inv_of_step hthi hth _ _ holder refresher
    · refine ⟨hlen₁, hlen₂, hpre, Or.inr rfl, ?_, hgate, hnone, ?_, hcalls, hmu, hhold, href⟩
      · intro _
        exact ⟨_, hpend, rfl⟩
      · intro h
        exact absurd h.symm hne
    · exact ⟨⟨rfl, rfl, ⟨u, hpend⟩, hnocalls⟩, by simpa [Pc.crit] using hcrit,
        by simpa [Pc.refr] using hrefr⟩
    · intro j b hj hb
      obtain ⟨h1, h2, h3⟩ := hb
      have hjc : b.pc.crit = false := by
        cases hb : b.pc.crit
        · rfl
        · rw [hholder] at h2
          exact absurd (Option.some.inj (h2.mp hb)).symm hj
      have hjr : b.pc.refr = false := by
        cases hb : b.pc.refr
        · rfl
        · rw [hrefresher] at h3
          exact absurd (Option.some.inj (h3.mp hb)).symm hj
      refine ⟨?_, h2, h3⟩
      apply Pc.ok_of_not_crit hnogate ?_ j b.pc hjc hjr h1
      exact Or.inl rfl
  | unlockR r =>
    rw [hpc] at hpcstep hok hcrit hrefr
    simp only [Pc.ok] at hok
    obtain ⟨rfl, hc, hpend, hnocalls⟩ := hok
    have hholder : holder = some i := by simpa [Pc.crit] using hcrit
    have hlocked : s.mem.mu = true := hmu.mpr (by simp [hholder])
    simp only [Pc.step, hlocked, ↓reduceIte, Option.some.injEq, Prod.mk.injEq] at hpcstep
    obtain ⟨rfl, rfl⟩ := hpcstep
    apply Inv_of_step hthi hth _ _ none refresher
    · refine ⟨hlen₁, hlen₂, hpre, hcache, hcur, hgate, hnone, ?_, hcalls, by simp,
        by simp, href⟩
      intro h
      exact absurd (h.symm.trans hc) hne
    · exact ⟨⟨rfl, hc, hpend, hnocalls⟩, by simp [Pc.crit], by simpa [Pc.refr] using hrefr⟩
    · intro j b hj hb
      obtain ⟨h1, h2, h3⟩ := hb
      refine ⟨Pc.ok_of_same rfl rfl rfl j b.pc h1, ?_, h3⟩
      rw [h2, hholder]
      simp [Ne.symm hj]
  | call r =>
    rw [hpc] at hpcstep hok hcrit hrefr
    simp only [Pc.ok] at hok
    obtain ⟨rfl, hc, ⟨u, hpend⟩, hnocalls⟩ := hok
    have hrefresher : refresher = some i := by simpa [Pc.refr] using hrefr
    have hlt : h₀.length < s.mem.heap.length := getElem?_some_lt hpend
    have hnogate : s.mem.gateNotClosed h₀.length := by
      intro rec hrec
      rw [hpend] at hrec
      simp only [Option.some.injEq] at hrec
      subst hrec
      simp
    have hothers : ∀ (m₁ : Shared W T E), m₁.cache = s.mem.cache → m₁.heap = s.mem.heap →
        ∀ j b, j ≠ i → Goroutine.ok h₀.length p₀ old.cacheFor holder refresher s.mem j b →
          Goroutine.ok h₀.length p₀ old.cacheFor holder refresher m₁ j b := by
      intro m₁ hc₁ hh₁ j b hj hb
      obtain ⟨h1, h2, h3⟩ := hb
      have hjr : b.pc.refr = false := by
        cases hb : b.pc.refr
        · rfl
        · rw [hrefresher] at h3
          exact absurd (Option.some.inj (h3.mp hb)).symm hj
      exact ⟨Pc.ok_of_not_refr hnogate hc₁ (by rw [hh₁]) j b.pc hjr h1, h2, h3⟩
    have hmem : ∀ (m₁ : Shared W T E), m₁.cache = s.mem.cache → m₁.heap = s.mem.heap →
        m₁.mu = s.mem.mu → m₁.calls = [i] →
        m₁.ok h₀ p₀ old.cacheFor holder refresher s.threads.length := by
      intro m₁ hc₁ hh₁ hm₁ hk₁
      refine ⟨by rw [hh₁]; exact hlen₁, by rw [hh₁]; exact hlen₂, by rw [hh₁]; exact hpre,
        by rw [hc₁]; exact hcache, by rw [hc₁, hh₁]; exact hcur, ?_, ?_,
        by rw [hc₁, hh₁]; exact hinst, by simp [hk₁], by rw [hm₁]; exact hmu, hhold, href⟩
      · intro rec hrec
        rw [hh₁, hpend] at hrec
        simp only [Option.some.injEq] at hrec
        subst hrec
        exact Or.inl ⟨rfl, by simp [hrefresher]⟩
      · intro h
        rw [hh₁] at h
        omega
    simp only [Pc.step] at hpcstep
    rcases hf : th.fn s.mem.world with ⟨o, w₁⟩
    cases o with
    | ret v e =>
      simp only [hf, Option.some.injEq, Prod.mk.injEq] at hpcstep
      obtain ⟨rfl, rfl⟩ := hpcstep
      apply Inv_of_step hthi hth _ _ holder refresher
      · exact hmem _ rfl rfl rfl (by simp [hnocalls])
      · exact ⟨⟨rfl, hc, ⟨u, hpend⟩, by simp [hnocalls]⟩, by simpa [Pc.crit] using hcrit,
          by simpa [Pc.refr] using hrefr⟩
      · exact hothers _ rfl rfl
    | panics =>
      simp only [hf, Option.some.injEq, Prod.mk.injEq] at hpcstep
      obtain ⟨rfl, rfl⟩ := hpcstep
      apply Inv_of_step hthi hth _ _ holder refresher
      · exact hmem _ rfl rfl rfl (by simp [hnocalls])
      · exact ⟨⟨rfl, hc, ⟨u, hpend⟩, by simp [hnocalls]⟩, by simpa [Pc.crit] using hcrit,
          by simpa [Pc.refr] using hrefr⟩
      · exact hothers _ rfl rfl
  | store r v e =>
    rw [hpc] at hpcstep hok hcrit hrefr
    simp only [Pc.ok] at hok
    obtain ⟨rfl, hc, ⟨u, hpend⟩, hmycall⟩ := hok
    have hrefresher : refresher = some i := by simpa [Pc.refr] using hrefr
    have hlt : h₀.length < s.mem.heap.length := getElem?_some_lt hpend
    have hnogate : s.mem.gateNotClosed h₀.length := by
      intro rec hrec
      rw [hpend] at hrec
      simp only [Option.some.injEq] at hrec
      subst hrec
      simp
    unfold Shared.pending at hpend
    simp only [Pc.step, hpend, Option.some.injEq, Prod.mk.injEq] at hpcstep
    obtain ⟨rfl, rfl⟩ := hpcstep
    apply Inv_of_step hthi hth _ _ holder refresher
    · refine ⟨by simpa using hlen₁, by simpa using hlen₂, ?_, hcache, ?_, ?_, ?_, ?_, hcalls,
        hmu, hhold, href⟩
      · intro p hp
        rw [← hpre p hp]
        exact List.getElem?_set_ne (by omega)
      · intro _
        exact ⟨_, List.getElem?_set_self hlt, rfl⟩
      · intro rec hrec
        simp only [List.getElem?_set_self hlt, Option.some.injEq] at hrec
        subst hrec
        exact Or.inl ⟨rfl, by simp [hrefresher]⟩
      · intro h
        simp at h
        omega
      · intro h
        exact absurd (h.symm.trans hc) hne
    · refine ⟨⟨rfl, hc, ⟨_, List.getElem?_set_self hlt, rfl⟩, hmycall⟩,
        by simpa [Pc.crit] using hcrit, by simpa [Pc.refr] using hrefr⟩
    · intro j b hj hb
      obtain ⟨h1, h2, h3⟩ := hb
      have hjr : b.pc.refr = false := by
        cases hb : b.pc.refr
        · rfl
        · rw [hrefresher] at h3
          exact absurd (Option.some.inj (h3.mp hb)).symm hj
      refine ⟨?_, h2, h3⟩
      apply Pc.ok_of_not_refr hnogate ?_ ?_ j b.pc hjr h1
      · rfl
      · simp
  | close r =>
    rw [hpc] at hpcstep hok hcrit hrefr
    simp only [Pc.ok] at hok
    obtain ⟨rfl, hc, ⟨rec, hrec, hopen⟩, hmycall⟩ := hok
    have hrefresher : refresher = some i := by simpa [Pc.refr] using hrefr
    have hlt : h₀.length < s.mem.heap.length := getElem?_some_lt hrec
    have hnogate : s.mem.gateNotClosed h₀.length := by
      intro rec₁ hrec₁
      rw [hrec] at hrec₁
      simp only [Option.some.injEq] at hrec₁
      subst hrec₁
      simp [hopen]
    obtain ⟨rec₁, hrec₁, hcf⟩ := hcur hc
    rw [hrec] at hrec₁
    simp only [Option.some.injEq] at hrec₁
    subst hrec₁
    simp only [Pc.step, hrec, hopen, Chan.close, Option.some.injEq, Prod.mk.injEq] at hpcstep
    obtain ⟨rfl, rfl⟩ := hpcstep
    apply Inv_of_step hthi hth _ _ holder none
    · refine ⟨by simpa using hlen₁, by simpa using hlen₂, ?_, hcache, ?_, ?_, ?_, ?_, hcalls,
        hmu, hhold, by simp⟩
      · intro p hp
        rw [← hpre p hp]
        exact List.getElem?_set_ne (by omega)
      · intro _
        exact ⟨_, List.getElem?_set_self hlt, hcf⟩
      · intro rec₁ hrec₁
        simp only [List.getElem?_set_self hlt, Option.some.injEq] at hrec₁
        subst hrec₁
        exact Or.inr ⟨rfl, rfl, i, hmycall, hin⟩
      · intro h
        simp at h
        omega
      · intro h
        exact absurd (h.symm.trans hc) hne
    · refine ⟨⟨rfl, hc, ⟨_, List.getElem?_set_self hlt, rfl⟩⟩,
        by simpa [Pc.crit] using hcrit, by simp [Pc.refr]⟩
    · intro j b hj hb
      obtain ⟨h1, h2, h3⟩ := hb
      have hjr : b.pc.refr = false := by
        cases hb : b.pc.refr
        · rfl
        · rw [hrefresher] at h3
          exact absurd (Option.some.inj (h3.mp hb)).symm hj
      refine ⟨?_, h2, by simp [hjr]⟩
      apply Pc.ok_of_not_refr hnogate ?_ ?_ j b.pc hjr h1
      · rfl
      · simp
  | recover r =>
    rw [hpc] at hpcstep hok hcrit hrefr
    simp only [Pc.ok] at hok
    obtain ⟨rfl, hc, ⟨u, hpend⟩, hmycall⟩ := hok
    have hrefresher : refresher = some i := by simpa [Pc.refr] using hrefr
    have hlt : h₀.length < s.mem.heap.length := getElem?_some_lt hpend
    have hnogate : s.mem.gateNotClosed h₀.length := by
      intro rec hrec
      rw [hpend] at hrec
      simp only [Option.some.injEq] at hrec
      subst hrec
      simp
    unfold Shared.pending at hpend
    simp only [Pc.step, hpend, Chan.close, Option.some.injEq, Prod.mk.injEq] at hpcstep
    obtain ⟨rfl, rfl⟩ := hpcstep
    apply Inv_of_step hthi hth _ _ holder none
    · refine ⟨by simpa using hlen₁, by simpa using hlen₂, ?_, hcache, ?_, ?_, ?_, ?_, hcalls,
        hmu, hhold, by simp⟩
      · intro p hp
        rw [← hpre p hp]
        exact List.getElem?_set_ne (by omega)
      · intro _
        exact ⟨_, List.getElem?_set_self hlt, rfl⟩
      · intro rec₁ hrec₁
        simp only [List.getElem?_set_self hlt, Option.some.injEq] at hrec₁
        subst hrec₁
        exact Or.inr ⟨rfl, rfl, i, hmycall, hin⟩
      · intro h
        simp at h
        omega
      · intro h
        exact absurd (h.symm.trans hc) hne
    · refine ⟨⟨hc, ⟨_, List.getElem?_set_self hlt, rfl, rfl, rfl⟩⟩,
        by simpa [Pc.crit] using hcrit, by simp [Pc.refr]⟩
    · intro j b hj hb
      obtain ⟨h1, h2, h3⟩ := hb
      have hjr : b.pc.refr = false := by
        cases hb : b.pc.refr
        · rfl
        · rw [hrefresher] at h3
          exact absurd (Option.some.inj (h3.mp hb)).symm hj
      refine ⟨?_, h2, by simp [hjr]⟩
      apply Pc.ok_of_not_refr hnogate ?_ ?_ j b.pc hjr h1
      · rfl
      · simp
  | unlockW r =>
    rw [hpc] at hpcstep hok hcrit hrefr
    simp only [Pc.ok] at hok
    obtain ⟨rfl, hc⟩ := hok
    have hholder : holder = some i := by simpa [Pc.crit] using hcrit
    have hlocked : s.mem.mu = true := hmu.mpr (by simp [hholder])
    simp only [Pc.step, hlocked, ↓reduceIte, Option.some.injEq, Prod.mk.injEq] at hpcstep
    obtain ⟨rfl, rfl⟩ := hpcstep
    apply Inv_of_step hthi hth _ _ none refresher
    · refine ⟨hlen₁, hlen₂, hpre, hcache, hcur, hgate, hnone, ?_, hcalls, by simp,
        by simp, href⟩
      intro h
      exact absurd (h.symm.trans hc) hne
    · exact ⟨⟨rfl, hc⟩, by simp [Pc.crit], by simpa [Pc.refr] using hrefr⟩
    · intro j b hj hb
      obtain ⟨h1, h2, h3⟩ := hb
      refine ⟨Pc.ok_of_same rfl rfl rfl j b.pc h1, ?_, h3⟩
      rw [h2, hholder]
      simp [Ne.symm hj]
  | recv r =>
    rw [hpc] at hpcstep hok hcrit hrefr
    simp only [Pc.ok] at hok
    obtain ⟨rfl, hc⟩ := hok
    obtain ⟨rec, hrec, hcf⟩ := hcur hc
    simp only [Pc.step, hrec] at hpcstep
    by_cases hcl : rec.ready = .closed
    · simp only [hcl, ↓reduceIte, Option.some.injEq, Prod.mk.injEq] at hpcstep
      obtain ⟨rfl, rfl⟩ := hpcstep
      apply Inv_of_step hthi hth _ _ holder refresher
      · exact ⟨hlen₁, hlen₂, hpre, hcache, hcur, hgate, hnone, hinst, hcalls, hmu, hhold, href⟩
      · exact ⟨⟨rfl, hc, rec, hrec, hcl⟩, by simpa [Pc.crit] using hcrit,
          by simpa [Pc.refr] using hrefr⟩
      · intro j b _ hb
        exact hb
    · simp [hcl] at hpcstep
  | ret r =>
    rw [hpc] at hpcstep hok hcrit hrefr
    simp only [Pc.ok] at hok
    obtain ⟨rfl, hc, rec, hrec, hcl⟩ := hok
    simp only [Pc.step, hrec] at hpcstep
    cases herr : rec.err with
    | none =>
      simp only [herr, Option.some.injEq, Prod.mk.injEq] at hpcstep
      obtain ⟨rfl, rfl⟩ := hpcstep
      apply Inv_of_step hthi hth _ _ holder refresher
      · exact ⟨hlen₁, hlen₂, hpre, hcache, hcur, hgate, hnone, hinst, hcalls, hmu, hhold, href⟩
      · exact ⟨⟨hc, rec, hrec, hcl, rfl, herr⟩, by simpa [Pc.crit] using hcrit,
          by simpa [Pc.refr] using hrefr⟩
      · intro j b _ hb
        exact hb
    | some e =>
      simp only [herr, Option.some.injEq, Prod.mk.injEq] at hpcstep
      obtain ⟨rfl, rfl⟩ := hpcstep
      apply Inv_of_step hthi hth _ _ holder refresher
      · exact ⟨hlen₁, hlen₂, hpre, hcache, hcur, hgate, hnone, hinst, hcalls, hmu, hhold, href⟩
      · exact ⟨⟨hc, rec, hrec, hcl, rfl, herr⟩, by simpa [Pc.crit] using hcrit,
          by simpa [Pc.refr] using hrefr⟩
      · intro j b _ hb
        exact hb
  | done v e =>
    rw [hpc] at hpcstep
    simp [Pc.step] at hpcstep
  | crashed =>
    rw [hpc] at hpcstep
    simp [Pc.step] at hpcstep

end cache

namespace cache

theorem Since_mono {t u : Int} (x : Int) (h : t ≤ u) : Since t x ≤ Since u x := by
  unfold Since Time.Sub maxDuration minDuration
  split_ifs <;> omega

/-- The invariant holds when the calls start. -/
theorem Inv_spawn {W T E : Type} [Inhabited T] (c : Cache T E) (old : record T E) (w : W)
    (fns : List (Fn W T E)) (hcur : c.current = some old) :
    (spawn c w fns).Inv c.heap c.cache old.cacheFor := by
  have hlt : c.cache < c.heap.length := current_lt hcur
  refine ⟨none, none, ?_, ?_⟩
  · refine ⟨le_refl _, Nat.le_succ _, fun _ _ => rfl, Or.inl rfl, ?_, ?_, fun _ => ⟨rfl, rfl⟩,
      fun _ => Or.inl rfl, by simp [spawn], by simp [spawn], by simp, by simp⟩
    · intro h
      simp only [spawn] at h
      omega
    · intro rec hrec
      simp only [spawn] at hrec
      rw [List.getElem?_eq_none (le_refl _)] at hrec
      exact absurd hrec (by simp)
  · intro i th hth
    simp only [spawn, List.getElem?_map, Option.map_eq_some'] at hth
    obtain ⟨fn, _, rfl⟩ := hth
    exact ⟨trivial, by simp [Pc.crit], by simp [Pc.refr]⟩

/-- The invariant holds along every interleaving whose clock readings are in the
window. -/
theorem Inv_exec {W T E : Type} [Inhabited T] {h₀ : List (record T E)} {p₀ : Nat}
    {old : record T E} {t₀ : Int} (hp₀ : h₀[p₀]? = some old)
    (hstale : Since t₀ old.createdAt > old.cacheFor) (sched : List (Nat × Int)) :
    ∀ s : System W T E, s.Inv h₀ p₀ old.cacheFor →
      InWindow t₀ h₀.length old.cacheFor s sched → (exec s sched).Inv h₀ p₀ old.cacheFor := by
  induction sched with
  | nil => intro s h _; exact h
  | cons e rest ih =>
    intro s hinv hwin
    obtain ⟨ht₀, hw, hrest⟩ := hwin
    have hnext : ((s.step e.1 e.2).getD s).Inv h₀ p₀ old.cacheFor := by
      cases hs : s.step e.1 e.2 with
      | none => exact hinv
      | some s₁ =>
        refine System.Inv.preserved hp₀ hinv e.1 e.2 ?_ ?_ hs
        · exact lt_of_lt_of_le hstale (Since_mono _ ht₀)
        · intro rec hc hrec
          unfold Shared.inWindow at hw
          rw [hrec] at hw
          exact Since_le_of_sub_le (hw hc).1 (hw hc).2
    exact ih _ hnext hrest

/-- The goroutines keep their producers, and their number. -/
theorem exec_fns {W T E : Type} [Inhabited T] (sched : List (Nat × Int)) :
    ∀ s : System W T E, (exec s sched).threads.map (fun th => th.fn)
      = s.threads.map (fun th => th.fn) := by
  induction sched with
  | nil => intro s; rfl
  | cons e rest ih =>
    intro s
    show (exec ((s.step e.1 e.2).getD s) rest).threads.map _ = _
    rw [ih]
    cases hs : s.step e.1 e.2 with
    | none => rfl
    | some s₁ =>
      obtain ⟨th, pc, m, hthi, _, rfl⟩ := System.step_eq hs
      simp only [Option.getD_some]
      apply List.ext_getElem?
      intro j
      simp only [List.getElem?_map]
      by_cases hj : e.1 = j
      · subst hj
        rw [List.getElem?_set_self (getElem?_some_lt hthi), hthi]
        rfl
      · rw [List.getElem?_set_ne hj]

end cache

namespace cache

/-! ### Concurrent calls: progress -/

/-- A goroutine holding the mutex, or refreshing, can always execute its next
statement. -/
theorem Pc.canStep_of_crit_or_refr {W T E : Type} [Inhabited T] (i : Nat) (fn : Fn W T E) (t : Int)
    (m : Shared W T E) (pc : Pc T E) (h : pc.crit = true ∨ pc.refr = true) :
    (Pc.step i fn t m pc).isSome = true := by
  cases pc <;> simp only [Pc.crit, Pc.refr, Bool.false_eq_true, or_self] at h <;>
    simp only [Pc.step]
  all_goals try split
  all_goals try split
  all_goals rfl

theorem System.canStep_of_pc {W T E : Type} [Inhabited T] {s : System W T E} {i : Nat}
    {th : Goroutine W T E} (t : Int) (hth : s.threads[i]? = some th)
    (h : (Pc.step i th.fn t s.mem th.pc).isSome = true) : (s.step i t).isSome = true := by
  cases hp : Pc.step i th.fn t s.mem th.pc with
  | none => rw [hp] at h; exact absurd h (by simp)
  | some x => simp [System.step, hth, hp]

/-- Every statement takes the goroutine further. -/
theorem Pc.rank_lt_of_step {W T E : Type} [Inhabited T] {i : Nat} {fn : Fn W T E} {t : Int}
    {m m₁ : Shared W T E} {pc pc₁ : Pc T E} (h : Pc.step i fn t m pc = some (pc₁, m₁)) :
    pc.rank < pc₁.rank := by
  cases pc <;> simp only [Pc.step] at h
  all_goals try split at h
  all_goals try split at h
  all_goals simp only [Option.some.injEq, Prod.mk.injEq, reduceCtorEq] at h
  all_goals obtain ⟨rfl, _⟩ := h
  all_goals simp [Pc.rank]

theorem sum_map_set_lt {α : Type} (f : α → Nat) (l : List α) :
    ∀ (i : Nat) (a x : α), l[i]? = some a → f a < f x →
      (l.map f).sum < ((l.set i x).map f).sum := by
  induction l with
  | nil => intro i a x h; simp at h
  | cons b l ih =>
    intro i a x h hlt
    cases i with
    | zero =>
      simp only [List.getElem?_cons_zero, Option.some.injEq] at h
      subst h
      simp only [List.set_cons_zero, List.map_cons, List.sum_cons]
      omega
    | succ i =>
      simp only [List.getElem?_cons_succ] at h
      simp only [List.set_cons_succ, List.map_cons, List.sum_cons]
      have := ih i a x h hlt
      omega

/-- Every step takes the system further. -/
theorem System.rank_increases {W T E : Type} [Inhabited T] {s s₁ : System W T E} {i : Nat}
    {t : Int} (h : s.step i t = some s₁) : s.rank < s₁.rank := by
  obtain ⟨th, pc, m, hthi, hp, rfl⟩ := System.step_eq h
  exact sum_map_set_lt (fun th => th.pc.rank) s.threads i th ⟨th.fn, pc⟩ hthi (Pc.rank_lt_of_step hp)

theorem Pc.rank_le_twelve {T E : Type} (pc : Pc T E) : pc.rank ≤ 12 := by
  cases pc <;> simp [Pc.rank]

theorem System.rank_le_mul {W T E : Type} (s : System W T E) : s.rank ≤ 12 * s.threads.length := by
  unfold System.rank
  induction s.threads with
  | nil => simp
  | cons th l ih =>
    simp only [List.map_cons, List.sum_cons, List.length_cons]
    have := Pc.rank_le_twelve th.pc
    omega

end cache

namespace cache

/-- Under the invariant, a goroutine that has not returned is either able to move
or waits for one that is. -/
theorem System.Inv.progress {W T E : Type} [Inhabited T] {h₀ : List (record T E)} {p₀ : Nat}
    {ttl : Int} {s : System W T E} (hinv : s.Inv h₀ p₀ ttl) (th : Goroutine W T E)
    (hmem : th ∈ s.threads) (hnd : th.pc.isDone = false) :
    ∃ i, ∀ t, (s.step i t).isSome = true := by
  obtain ⟨j, hj⟩ := List.mem_iff_getElem?.mp hmem
  obtain ⟨holder, refresher, hm, hth⟩ := hinv
  obtain ⟨hok, hcrit, hrefr⟩ := hth j th hj
  obtain ⟨hlen₁, hlen₂, hpre, hcache, hcur, hgate, hnone, hinst, hcalls, hmu, hhold, href⟩ := hm
  have hmove : ∀ k, (holder = some k ∨ refresher = some k) →
      ∀ t, (s.step k t).isSome = true := by
    intro k hk t
    have hkn : k < s.threads.length := by
      rcases hk with h | h
      · exact hhold k h
      · exact href k h
    obtain ⟨thk, hthk⟩ : ∃ thk, s.threads[k]? = some thk :=
      ⟨s.threads[k], List.getElem?_eq_getElem hkn⟩
    obtain ⟨_, hc, hr⟩ := hth k thk hthk
    apply System.canStep_of_pc t hthk
    apply Pc.canStep_of_crit_or_refr
    rcases hk with h | h
    · exact Or.inl (hc.mpr h)
    · exact Or.inr (hr.mpr h)
  by_cases hcr : th.pc.crit = true ∨ th.pc.refr = true
  · exact ⟨j, fun t => System.canStep_of_pc t hj (Pc.canStep_of_crit_or_refr j th.fn t s.mem th.pc hcr)⟩
  · cases hpc : th.pc with
    | lock =>
      by_cases hlocked : s.mem.mu = true
      · obtain ⟨k, hk⟩ := Option.ne_none_iff_exists'.mp (hmu.mp hlocked)
        exact ⟨k, hmove k (Or.inl hk)⟩
      · refine ⟨j, fun t => System.canStep_of_pc t hj ?_⟩
        simp [hpc, Pc.step, hlocked]
    | recv r =>
      rw [hpc] at hok
      simp only [Pc.ok] at hok
      obtain ⟨rfl, hc⟩ := hok
      obtain ⟨rec, hrec, _⟩ := hcur hc
      rcases hgate rec hrec with ⟨_, hne⟩ | ⟨hcl, _⟩
      · obtain ⟨k, hk⟩ := Option.ne_none_iff_exists'.mp hne
        exact ⟨k, hmove k (Or.inr hk)⟩
      · refine ⟨j, fun t => System.canStep_of_pc t hj ?_⟩
        simp [hpc, Pc.step, hrec, hcl]
    | ret r =>
      refine ⟨j, fun t => System.canStep_of_pc t hj ?_⟩
      simp only [hpc, Pc.step]
      split
      · rfl
      · split <;> rfl
    | done v e => simp [hpc, Pc.isDone] at hnd
    | crashed =>
      rw [hpc] at hok
      exact absurd hok (by simp [Pc.ok])
    | _ => simp [hpc, Pc.crit, Pc.refr] at hcr

/-- Under the invariant, the calls that returned all returned the values stored in
the refreshed record, and one producer was invoked. -/
theorem System.Inv.returned {W T E : Type} [Inhabited T] {h₀ : List (record T E)} {p₀ : Nat}
    {ttl : Int} {s : System W T E} (hinv : s.Inv h₀ p₀ ttl) (th : Goroutine W T E)
    (hmem : th ∈ s.threads) (v : T) (e : Option E) (hpc : th.pc = .done v e) :
    (∃ rec, s.mem.heap[h₀.length]? = some rec ∧ rec.value = v ∧ rec.err = e) ∧
    ∃ i, i < s.threads.length ∧ s.mem.calls = [i] := by
  obtain ⟨j, hj⟩ := List.mem_iff_getElem?.mp hmem
  obtain ⟨holder, refresher, hm, hth⟩ := hinv
  obtain ⟨hok, _, _⟩ := hth j th hj
  obtain ⟨_, _, _, _, _, hgate, _⟩ := hm
  rw [hpc] at hok
  simp only [Pc.ok] at hok
  obtain ⟨_, rec, hrec, hcl, hv, he⟩ := hok
  refine ⟨⟨rec, hrec, hv, he⟩, ?_⟩
  rcases hgate rec hrec with ⟨hop, _⟩ | ⟨_, _, i, hi, hlt⟩
  · rw [hcl] at hop
    exact absurd hop (by simp)
  · exact ⟨i, hlt, hi⟩

end cache

namespace cache

/-- A single goroutine run statement by statement does what `Get` does: same heap,
same cache pointer, same environment of the producer, and the goroutine ends
where the outcome of `Get` says (returned `(v, e)`, blocked on the gate, or
panicked). -/
theorem solo_eq_Get {W T E : Type} [Inhabited T] (c : Cache T E) (fn : Fn W T E)
    (tSince tNow : Int) (w : W) :
    (exec (spawn c w [fn]) (soloSchedule tSince tNow)).mem.heap
      = (Get c fn tSince tNow w).cache.heap ∧
    (exec (spawn c w [fn]) (soloSchedule tSince tNow)).mem.cache
      = (Get c fn tSince tNow w).cache.cache ∧
    (exec (spawn c w [fn]) (soloSchedule tSince tNow)).mem.world
      = (Get c fn tSince tNow w).world ∧
    (exec (spawn c w [fn]) (soloSchedule tSince tNow)).threads.map (fun th => th.pc)
      = [(Get c fn tSince tNow w).out.pc c.cache] := by
  cases hcur : c.heap[c.cache]? with
  | none =>
    simp [exec, soloSchedule, spawn, System.step, Pc.step, Get, Cache.deref, hcur, GetOut.pc]
  | some old =>
    by_cases hs : Since tSince old.createdAt > old.cacheFor
    · rcases hf : fn w with ⟨o, w₁⟩
      cases o with
      | ret v e =>
        cases e <;>
        simp [exec, soloSchedule, spawn, System.step, Pc.step, Get, Cache.deref, hcur,
          GetOut.pc, hs, hf, Chan.close, Get.result]
      | panics =>
        simp [exec, soloSchedule, spawn, System.step, Pc.step, Get, Cache.deref, hcur,
          GetOut.pc, hs, hf, Chan.close, Get.result]
    · cases hr : old.ready <;> cases he : old.err <;>
      simp [exec, soloSchedule, spawn, System.step, Pc.step, Get, Cache.deref, hcur,
        GetOut.pc, hs, hr, he, Chan.recv, Get.result]

/-- C7 (single-flight).  `N ≥ 1` goroutines call `Get`, each with its own
producer, on a cache whose current record `old` is stale at `t₀`; they run
statement by statement in any interleaving `sched`, whose clock readings are not
earlier than `t₀` and, once the refreshed record is installed, lie within the
TTL window of that refresh (`InWindow`).  Then, at the end of `sched`:
the goroutines still are the `N` calls; at most one producer invocation has
happened; no goroutine has panicked; any two calls that returned, returned the
identical `(value, error)`; when all `N` calls have returned, exactly one
producer, that of some goroutine `i`, has been invoked, exactly once; and as long
as some call has not returned, some goroutine can execute its next statement
(so when no goroutine can move any more, all `N` calls have returned), each
executed statement increasing a progress measure bounded by `12 * N` (so that
point is reached after at most `12 * N` statements). -/
theorem single_flight {W T E : Type} [Inhabited T] (c : Cache T E) (old : record T E) (w : W)
    (fns : List (Fn W T E)) (t₀ : Int) (sched : List (Nat × Int))
    (hN : 1 ≤ fns.length) (hcur : c.current = some old)
    (hstale : Since t₀ old.createdAt > old.cacheFor)
    (hwin : InWindow t₀ c.heap.length old.cacheFor (spawn c w fns) sched) :
    (exec (spawn c w fns) sched).threads.map (fun th => th.fn) = fns ∧
    (exec (spawn c w fns) sched).mem.calls.length ≤ 1 ∧
    (∀ th ∈ (exec (spawn c w fns) sched).threads, th.pc ≠ .crashed) ∧
    (∀ th₁ ∈ (exec (spawn c w fns) sched).threads,
      ∀ th₂ ∈ (exec (spawn c w fns) sched).threads, ∀ v₁ e₁ v₂ e₂,
        th₁.pc = .done v₁ e₁ → th₂.pc = .done v₂ e₂ → v₁ = v₂ ∧ e₁ = e₂) ∧
    ((∀ th ∈ (exec (spawn c w fns) sched).threads, th.pc.isDone = true) →
      ∃ i, i < fns.length ∧ (exec (spawn c w fns) sched).mem.calls = [i]) ∧
    ((∃ th ∈ (exec (spawn c w fns) sched).threads, th.pc.isDone = false) →
      ∃ i, ∀ t, ((exec (spawn c w fns) sched).step i t).isSome = true) ∧
    (∀ i t s₁, (exec (spawn c w fns) sched).step i t = some s₁ →
      (exec (spawn c w fns) sched).rank < s₁.rank) ∧
    (exec (spawn c w fns) sched).rank ≤ 12 * fns.length := by
  have hinv : (exec (spawn c w fns) sched).Inv c.heap c.cache old.cacheFor :=
    Inv_exec hcur hstale sched _ (Inv_spawn c old w fns hcur) hwin
  have hfns : (exec (spawn c w fns) sched).threads.map (fun th => th.fn) = fns := by
    rw [exec_fns]
    simp only [spawn, List.map_map]
    exact List.map_id _
  have hlen : (exec (spawn c w fns) sched).threads.length = fns.length := by
    have h := congrArg List.length hfns
    simpa using h
  refine ⟨hfns, ?_, ?_, ?_, ?_, ?_, ?_, ?_⟩
  · obtain ⟨_, _, hm, _⟩ := hinv
    exact hm.2.2.2.2.2.2.2.2.1
  · intro th hmem hcr
    obtain ⟨j, hj⟩ := List.mem_iff_getElem?.mp hmem
    obtain ⟨_, _, _, hth⟩ := hinv
    have := (hth j th hj).1
    rw [hcr] at this
    exact this
  · intro th₁ h₁ th₂ h₂ v₁ e₁ v₂ e₂ hd₁ hd₂
    obtain ⟨⟨r₁, hr₁, hv₁, he₁⟩, _⟩ := hinv.returned th₁ h₁ v₁ e₁ hd₁
    obtain ⟨⟨r₂, hr₂, hv₂, he₂⟩, _⟩ := hinv.returned th₂ h₂ v₂ e₂ hd₂
    rw [hr₁] at hr₂
    simp only [Option.some.injEq] at hr₂
    subst hr₂
    exact ⟨hv₁.symm.trans hv₂, he₁.symm.trans he₂⟩
  · intro hall
    have hpos : 0 < (exec (spawn c w fns) sched).threads.length := by omega
    have hmem : (exec (spawn c w fns) sched).threads[0] ∈ (exec (spawn c w fns) sched).threads :=
      List.getElem_mem hpos
    have hd := hall _ hmem
    cases hpc : ((exec (spawn c w fns) sched).threads[0]).pc with
    | done v e =>
      obtain ⟨_, i, hi, hc⟩ := hinv.returned _ hmem v e hpc
      exact ⟨i, by omega, hc⟩
    | _ => simp [hpc, Pc.isDone] at hd
  · rintro ⟨th, hmem, hnd⟩
    exact hinv.progress th hmem hnd
  · intro i t s₁ hs
    exact System.rank_increases hs
  · rw [← hlen]
    exact System.rank_le_mul _

set_option maxRecDepth 100000 in
theorem single_flight_witness :
    InWindow 5000 1 1000 (spawn (New 1000) 0 [produce123, produce456, producePanic])
      interleaving3 ∧
    (exec (spawn (New 1000) 0 [produce123, produce456, producePanic]) interleaving3).threads.map
        (fun th => th.pc)
      = [.done 123 none, .done 123 none, .done 123 none] ∧
    ∃ i, i < 3 ∧
      (exec (spawn (New 1000) 0 [produce123, produce456, producePanic]) interleaving3).mem.calls
        = [i] :=
  ⟨by decide, by decide,
    (single_flight (New 1000) ⟨0, 0, 1000, none, .nil⟩ 0 [produce123, produce456, producePanic]
      5000 interleaving3 (by decide) rfl (by decide) (by decide)).2.2.2.2.1 (by decide)⟩

end cache

namespace cache

/-! ### The TTL of refreshed records -/

/-- Calls of `Get` keep the `cacheFor` of the current record. -/
theorem runGets_cacheFor {W T E : Type} [Inhabited T] (ttl : Int) (ks : List (Call W T E)) :
    ∀ (c : Cache T E) (w : W), (∃ r, c.current = some r ∧ r.cacheFor = ttl) →
      ∀ res ∈ runGets c w ks, ∃ r, res.cache.current = some r ∧ r.cacheFor = ttl := by
  induction ks with
  | nil => intro c w _ res h; simp [runGets] at h
  | cons k ks ih =>
    intro c w hc res h
    obtain ⟨old, hcur, hold⟩ := hc
    obtain ⟨r, hr, hcf⟩ := Get_current_cacheFor k.fn k.tSince k.tNow w hcur
    simp only [runGets, List.mem_cons] at h
    rcases h with h | h
    · subst h
      exact ⟨r, hr, hcf.trans hold⟩
    · exact ih _ _ ⟨r, hr, hcf.trans hold⟩ res h

/-- C11 (TTL invariant without `Clear`).  For every `ttl`, the cache `New(ttl)` has
a current record with `cacheFor = ttl`, and for every finite sequence of `Get`
calls (any producers, returning a value, an error or panicking; any clock
readings; no `Clear`), after every call of the sequence the cache has a current
record whose `cacheFor` is `ttl`. -/
theorem ttl_kept_without_clear {W T E : Type} [Inhabited T] (ttl : Int) (w : W)
    (ks : List (Call W T E)) :
    (∃ r, (New ttl : Cache T E).current = some r ∧ r.cacheFor = ttl) ∧
    ∀ res ∈ runGets (New ttl : Cache T E) w ks,
      ∃ r, res.cache.current = some r ∧ r.cacheFor = ttl :=
  ⟨⟨_, rfl, rfl⟩, runGets_cacheFor ttl ks (New ttl) w ⟨_, rfl, rfl⟩⟩

/-- C12, as stated, fails: `New(1000)`, a first `Get` refreshes with the clock at
`5000` (the record gets `createdAt = 5000`, `cacheFor = 1000`), and a second
`Get`, with a producer of `456`, is made with the clock at `6000`, exactly the TTL
later.  Then `elapsed = 1000` is not greater than `cacheFor = 1000`: the producer
is not invoked and the stale `(123, nil)` is returned. -/
theorem get_exactly_ttl_later_is_served :
    Event.call ∈ (Get (New 1000) produce123 5000 5000 0).trace ∧
    (Get (New 1000) produce123 5000 5000 0).cache.current
      = some ⟨123, 5000, 1000, none, .closed⟩ ∧
    (6000 : Int) - 5000 ≥ 1000 ∧
    Event.call ∉
      (Get (Get (New 1000) produce123 5000 5000 0).cache produce456 6000 6000 1).trace ∧
    (Get (Get (New 1000) produce123 5000 5000 0).cache produce456 6000 6000 1).world = 1 ∧
    (Get (Get (New 1000) produce123 5000 5000 0).cache produce456 6000 6000 1).out
      = .returned 123 none := by
  decide

theorem Since_gt_of_sub_gt {now t d : Int} (hmax : d < maxDuration) (h : d < now - t) :
    Since now t > d := by
  unfold Since Time.Sub
  unfold maxDuration at hmax
  unfold maxDuration minDuration
  split_ifs <;> omega

/-- C12, amended.  For every TTL `ttl` below the maximum Duration (in particular
every `0 ≤ ttl < maxDuration`), if a `Get(f)` refreshed the cache, reading
`time.Now` at `t₁`, and left a current record `rec` with `cacheFor = ttl`, then
`rec.createdAt = t₁` and a `Get(g)` made at any clock reading `t₂` with
`t₂ - t₁ > ttl` invokes `g` exactly once and returns what `g` returns, not the
stale value (when `g` panics, the zero value and a nil error). -/
theorem get_later_than_ttl_refreshes {W T E : Type} [Inhabited T] (c : Cache T E)
    (f g : Fn W T E) (s₁ t₁ t₂ u₂ ttl : Int) (w : W) (rec : record T E)
    (hrefresh : Event.call ∈ (Get c f s₁ t₁ w).trace)
    (hrec : (Get c f s₁ t₁ w).cache.current = some rec)
    (httl : rec.cacheFor = ttl) (hmax : ttl < maxDuration) (hlater : ttl < t₂ - t₁) :
    rec.createdAt = t₁ ∧
    (Get (Get c f s₁ t₁ w).cache g t₂ u₂ (Get c f s₁ t₁ w).world).trace.count Event.call
      = 1 ∧
    (Get (Get c f s₁ t₁ w).cache g t₂ u₂ (Get c f s₁ t₁ w).world).world
      = (g (Get c f s₁ t₁ w).world).2 ∧
    (∀ v e, (g (Get c f s₁ t₁ w).world).1 = .ret v e →
      (Get (Get c f s₁ t₁ w).cache g t₂ u₂ (Get c f s₁ t₁ w).world).out = .returned v e) ∧
    ((g (Get c f s₁ t₁ w).world).1 = .panics →
      (Get (Get c f s₁ t₁ w).cache g t₂ u₂ (Get c f s₁ t₁ w).world).out
        = .returned default none) := by
  obtain ⟨old, hcur, hstale⟩ := Get_call_mem hrefresh
  obtain ⟨_, _, _, _, r, hr, hcr, _, _⟩ := Get_stale f t₁ w hcur hstale
  rw [hrec] at hr
  simp only [Option.some.injEq] at hr
  subst hr
  have hexp : Since t₂ rec.createdAt > rec.cacheFor := by
    rw [hcr, httl]
    exact Since_gt_of_sub_gt hmax hlater
  obtain ⟨h₁, h₂, h₃, h₄, _⟩ :=
    Get_stale g u₂ (Get c f s₁ t₁ w).world hrec hexp
  exact ⟨hcr, h₁, h₂, h₃, h₄⟩

theorem get_later_than_ttl_refreshes_witness :
    (Event.call ∈ (Get (New 1000) produce123 5000 5000 0).trace ∧
      (1000 : Int) < maxDuration ∧ (1000 : Int) < 6001 - 5000) ∧
    (Get (Get (New 1000) produce123 5000 5000 0).cache produce456 6001 6001
        (Get (New 1000) produce123 5000 5000 0).world).out = .returned 456 none :=
  ⟨⟨by decide, by decide, by decide⟩,
    (get_later_than_ttl_refreshes (New 1000) produce123 produce456 5000 5000 6001 6001 1000 0
      ⟨123, 5000, 1000, none, .closed⟩ (by decide) (by decide) rfl (by decide)
      (by decide)).2.2.2.1 456 none rfl⟩

end cache

namespace cache

/-! ### The gate and the mutex along a call -/

/-- The records allocated before a refreshing `Get` are left as they were. -/
theorem deref_set_append {T E : Type} (h : List (record T E)) (a b : record T E) (p : Nat)
    (hp : p < h.length) :
    Cache.deref ⟨(h ++ [a]).set h.length b, h.length⟩ p = Cache.deref ⟨h, h.length⟩ p := by
  simp only [Cache.deref]
  rw [List.getElem?_set_ne (Nat.ne_of_gt hp), List.getElem?_append_left hp]

/-- C13, as stated, fails in its last part: two goroutines call `Get` on
`NewForTesting()`.  Goroutine 0 refreshes and, before its producer is called,
goroutine 1 finds the new record expired (TTL zero, clock one nanosecond later)
and installs a record of its own; goroutine 0 then finishes and returns
`(123, nil)`.  At that point the current record is the one at address `2`,
installed by goroutine 1, whose producer has not been called yet: its gate is
still open. -/
theorem gate_open_after_a_get_returned :
    (exec (spawn NewForTesting 0 [produce123, produce456]) interleaving2).threads.map
        (fun th => th.pc) = [.done 123 none, .call 2] ∧
    (exec (spawn NewForTesting 0 [produce123, produce456]) interleaving2).mem.cache = 2 ∧
    ((exec (spawn NewForTesting 0 [produce123, produce456]) interleaving2).mem.heap[2]?).map
        (fun r => r.ready) = some .opened := by
  decide

/-- C13, amended.  For every cache, producer, clock readings and environment:
in the refresh branch of `Get`, whether the producer returns or panics, exactly
one gate is closed, once, that of the new record (the closes of the run are
`[c.heap.length]`, the address of the new record), this record is the current
one afterwards with its gate closed, `Get` does not panic (no close of a closed
channel) and the records allocated before are untouched, gates included;
in the wait branch `Get` closes no gate and changes nothing in the cache;
`Clear` closes no gate and leaves the gate of every record as it was;
hence whenever a `Get` that ran with no other call in between has returned, the
current record's gate is closed. -/
theorem gate_closed_exactly_once {W T E : Type} [Inhabited T] (c : Cache T E)
    (fn : Fn W T E) (tSince tNow : Int) (w : W) :
    (∀ old, c.current = some old → Since tSince old.createdAt > old.cacheFor →
      closes (Get c fn tSince tNow w).trace = [c.heap.length] ∧
      c.deref c.heap.length = none ∧
      (Get c fn tSince tNow w).cache.cache = c.heap.length ∧
      (∃ r, (Get c fn tSince tNow w).cache.current = some r ∧ r.ready = .closed) ∧
      (Get c fn tSince tNow w).out ≠ .panicked ∧
      ∀ p, p < c.heap.length → (Get c fn tSince tNow w).cache.deref p = c.deref p) ∧
    (∀ old, c.current = some old → Since tSince old.createdAt ≤ old.cacheFor →
      closes (Get c fn tSince tNow w).trace = [] ∧ (Get c fn tSince tNow w).cache = c) ∧
    (closes (Clear c).trace = [] ∧
      (Clear c).cache.heap.length = c.heap.length ∧
      ∀ p, ((Clear c).cache.deref p).map (fun r => r.ready)
        = (c.deref p).map (fun r => r.ready)) ∧
    (∀ v e, (Get c fn tSince tNow w).out = .returned v e →
      ∃ r, (Get c fn tSince tNow w).cache.current = some r ∧ r.ready = .closed) := by
  have hstale : ∀ old, c.current = some old → Since tSince old.createdAt > old.cacheFor →
      closes (Get c fn tSince tNow w).trace = [c.heap.length] ∧
      c.deref c.heap.length = none ∧
      (Get c fn tSince tNow w).cache.cache = c.heap.length ∧
      (∃ r, (Get c fn tSince tNow w).cache.current = some r ∧ r.ready = .closed) ∧
      (Get c fn tSince tNow w).out ≠ .panicked ∧
      ∀ p, p < c.heap.length → (Get c fn tSince tNow w).cache.deref p = c.deref p := by
    intro old hcur hs
    have hnone : c.deref c.heap.length = none := by
      simp [Cache.deref]
    rcases hf : fn w with ⟨o, w₁⟩
    cases o with
    | ret v e =>
      rw [Get_stale_ret tNow hcur hs hf]
      refine ⟨by simp [closes], hnone, rfl, ⟨_, current_set_append _ _ _, rfl⟩, by simp, ?_⟩
      intro p hp
      exact deref_set_append _ _ _ p hp
    | panics =>
      rw [Get_stale_panics tNow hcur hs hf]
      refine ⟨by simp [closes], hnone, rfl, ⟨_, current_set_append _ _ _, rfl⟩, by simp, ?_⟩
      intro p hp
      exact deref_set_append _ _ _ p hp
  have hfresh : ∀ old, c.current = some old → Since tSince old.createdAt ≤ old.cacheFor →
      closes (Get c fn tSince tNow w).trace = [] ∧ (Get c fn tSince tNow w).cache = c := by
    intro old hcur hs
    by_cases hr : old.ready = .closed
    · rw [Get_fresh_closed c fn tSince tNow w hcur hs hr]
      exact ⟨by simp [closes], rfl⟩
    · rw [Get_fresh_not_closed c fn tSince tNow w hcur hs hr]
      exact ⟨by simp [closes], rfl⟩
  refine ⟨hstale, hfresh, ?_, ?_⟩
  · cases hcur : c.current with
    | none =>
      unfold Cache.current at hcur
      simp [Clear, hcur, closes]
    | some r =>
      rw [Clear_eq hcur]
      refine ⟨by simp [closes], by simp, ?_⟩
      intro p
      simp only [Cache.deref]
      by_cases hp : p = c.cache
      · subst hp
        unfold Cache.current Cache.deref at hcur
        rw [List.getElem?_set_self (current_lt (by unfold Cache.current Cache.deref; exact hcur)),
          hcur]
        rfl
      · rw [List.getElem?_set_ne (Ne.symm hp)]
  · intro v e hout
    cases hcur : c.current with
    | none =>
      unfold Cache.current at hcur
      simp [Get, hcur] at hout
    | some old =>
      by_cases hs : Since tSince old.createdAt > old.cacheFor
      · exact (hstale old hcur hs).2.2.2.1
      · have hle := not_lt.mp hs
        by_cases hr : old.ready = .closed
        · rw [Get_fresh_closed c fn tSince tNow w hcur hle hr]
          exact ⟨old, hcur, hr⟩
        · rw [Get_fresh_not_closed c fn tSince tNow w hcur hle hr] at hout
          exact absurd hout (by simp)

theorem gate_closed_exactly_once_witness :
    closes (Get (New 1000) producePanic 5000 5000 0).trace = [1] ∧
    closes (Get (Get (New 1000) produce123 5000 5000 0).cache produce456 5500 5500 1).trace
      = [] :=
  ⟨((gate_closed_exactly_once (New 1000) producePanic 5000 5000 0).1
      ⟨0, 0, 1000, none, .nil⟩ rfl (by decide)).1,
    ((gate_closed_exactly_once (Get (New 1000) produce123 5000 5000 0).cache produce456
      5500 5500 1).2.1 ⟨123, 5000, 1000, none, .closed⟩ (by decide) (by decide)).1⟩

end cache

namespace cache

/-- C15 (outcome of a panicking producer).  In every cache state whose current
record `old` is stale, a `Get` whose producer panics returns normally with the
zero value and a nil error, and leaves as current the record it installed, with
`value` the zero value, `err` nil, `createdAt` the reading of `time.Now` (`tNow`),
`cacheFor = old.cacheFor` and a closed gate; and every `Get` of any later
sequence of `Get` calls whose clock readings `t` lie in that record's TTL window
(`tNow ≤ t` and `t - tNow ≤ old.cacheFor`) returns the zero value and a nil error
as well, without invoking its producer and without changing the cache. -/
theorem panicking_producer_outcome {W T E : Type} [Inhabited T] (c : Cache T E)
    (old : record T E) (fn : Fn W T E) (tSince tNow : Int) (w w₁ : W)
    (ks : List (Call W T E))
    (hcur : c.current = some old) (hstale : Since tSince old.createdAt > old.cacheFor)
    (hfn : fn w = (.panics, w₁))
    (hwin : ∀ k ∈ ks, tNow ≤ k.tSince ∧ k.tSince - tNow ≤ old.cacheFor) :
    (Get c fn tSince tNow w).out = .returned default none ∧
    (Get c fn tSince tNow w).cache.current
      = some { value := default, createdAt := tNow, cacheFor := old.cacheFor, err := none,
               ready := .closed } ∧
    ∀ res ∈ runGets (Get c fn tSince tNow w).cache (Get c fn tSince tNow w).world ks,
      res.out = .returned default none ∧ Event.call ∉ res.trace ∧ res.world = w₁ ∧
        res.cache = (Get c fn tSince tNow w).cache := by
  rw [Get_stale_panics tNow hcur hstale hfn]
  refine ⟨rfl, current_set_append _ _ _, ?_⟩
  exact runGets_fresh _ _ w₁ (current_set_append _ _ _) rfl ks (by
    intro k hk
    exact Since_le_of_sub_le (hwin k hk).1 (hwin k hk).2)

theorem panicking_producer_outcome_witness :
    (Get (New 1000) producePanic 5000 5001 0).out = .returned 0 none ∧
    ∀ res ∈ runGets (Get (New 1000) producePanic 5000 5001 0).cache
        (Get (New 1000) producePanic 5000 5001 0).world
        [⟨produce123, 5001, 5002⟩, ⟨produceErr, 6001, 6001⟩],
      res.out = .returned 0 none ∧ Event.call ∉ res.trace ∧ res.world = 1 ∧
        res.cache = (Get (New 1000) producePanic 5000 5001 0).cache :=
  ⟨by decide,
    (panicking_producer_outcome (New 1000) ⟨0, 0, 1000, none, .nil⟩ producePanic 5000 5001 0 1
      [⟨produce123, 5001, 5002⟩, ⟨produceErr, 6001, 6001⟩]
      rfl (by decide) rfl (by decide)).2.2⟩

end cache

namespace cache

/-- The refresh branch, statement by statement. -/
theorem solo_refresh_history {W T E : Type} [Inhabited T] (c : Cache T E) (old : record T E)
    (fn : Fn W T E) (tSince tNow : Int) (w : W) (hcur : c.current = some old)
    (hs : Since tSince old.createdAt > old.cacheFor) :
    (trajectory (spawn c w [fn]) (soloSchedule tSince tNow)).map
        (fun s => (s.mem.mu, s.mem.cache, s.mem.calls, s.mem.world))
      = [(false, c.cache, [], w), (true, c.cache, [], w), (true, c.cache, [], w),
         (true, c.cache, [], w), (true, c.cache, [], w), (true, c.cache, [], w),
         (true, c.cache, [], w), (true, c.heap.length, [], w), (false, c.heap.length, [], w),
         (false, c.heap.length, [0], (fn w).2), (false, c.heap.length, [0], (fn w).2),
         (false, c.heap.length, [0], (fn w).2), (false, c.heap.length, [0], (fn w).2)] ∧
    ((trajectory (spawn c w [fn]) (soloSchedule tSince tNow)).map
        (fun s => s.threads.map (fun th => th.pc))).take 9
      = [[.lock], [.load], [.since c.cache], [.test c.cache (Since tSince old.createdAt)],
         [.alloc c.cache], [.stamp c.heap.length], [.install c.heap.length],
         [.unlockR c.heap.length], [.call c.heap.length]] := by
  unfold Cache.current Cache.deref at hcur
  rcases hf : fn w with ⟨o, w₁⟩
  cases o with
  | ret v e =>
    cases e <;>
      simp [trajectory, soloSchedule, spawn, System.step, Pc.step, hcur, hs, hf, Chan.close]
  | panics =>
    simp [trajectory, soloSchedule, spawn, System.step, Pc.step, hcur, hs, hf, Chan.close]

/-- The wait branch, statement by statement. -/
theorem solo_wait_history {W T E : Type} [Inhabited T] (c : Cache T E) (old : record T E)
    (fn : Fn W T E) (tSince tNow : Int) (w : W) (hcur : c.current = some old)
    (hs : Since tSince old.createdAt ≤ old.cacheFor) :
    (trajectory (spawn c w [fn]) (soloSchedule tSince tNow)).map
        (fun s => (s.mem.mu, s.mem.cache, s.mem.calls, s.mem.world))
      = [(false, c.cache, [], w), (true, c.cache, [], w), (true, c.cache, [], w),
         (true, c.cache, [], w), (true, c.cache, [], w), (false, c.cache, [], w),
         (false, c.cache, [], w), (false, c.cache, [], w), (false, c.cache, [], w),
         (false, c.cache, [], w), (false, c.cache, [], w), (false, c.cache, [], w),
         (false, c.cache, [], w)] ∧
    ((trajectory (spawn c w [fn]) (soloSchedule tSince tNow)).map
        (fun s => s.threads.map (fun th => th.pc))).take 6
      = [[.lock], [.load], [.since c.cache], [.test c.cache (Since tSince old.createdAt)],
         [.unlockW c.cache], [.recv c.cache]] := by
  unfold Cache.current Cache.deref at hcur
  have hs' : ¬ (Since tSince old.createdAt > old.cacheFor) := not_lt.mpr hs
  cases hr : old.ready <;> cases he : old.err <;>
    simp [trajectory, soloSchedule, spawn, System.step, Pc.step, hcur, hs', hr, he]

end cache

namespace cache

/-- `Clear`, statement by statement, and the cache it leaves. -/
theorem solo_clear_history {W T E : Type} [Inhabited T] (c : Cache T E) (r : record T E)
    (w : W) (hcur : c.current = some r) :
    (ClearPc.trajectory 5 .lock (⟨c.heap, c.cache, false, w, []⟩ : Shared W T E)).map
        (fun x => (x.1, x.2.mu, x.2.cache, x.2.calls, x.2.world))
      = [(.lock, false, c.cache, [], w), (.load, true, c.cache, [], w),
         (.zeroValue c.cache, true, c.cache, [], w),
         (.zeroCacheFor c.cache, true, c.cache, [], w), (.unlock, true, c.cache, [], w),
         (.done, false, c.cache, [], w)] ∧
    (ClearPc.trajectory 5 .lock (⟨c.heap, c.cache, false, w, []⟩ : Shared W T E)).getLast?.map
        (fun x => x.2.heap) = some (Clear c).cache.heap := by
  have hlt := current_lt hcur
  rw [Clear_eq hcur]
  unfold Cache.current Cache.deref at hcur
  simp [ClearPc.trajectory, ClearPc.step, hcur, hlt]

/-- C14 (the lock is never held across the producer).  A goroutine runs `Get`, or
`Clear`, statement by statement on a cache with a current record `old`, starting
with the mutex free; the history is the list of the states it goes through (the
mutex bit, the pointer `c.cache`, the list of producer invocations, the
producers' environment).  On every path the mutex bit goes from free to held
once and from held to free once.
In the refresh branch, whether the producer returns or panics: the mutex is held
from the first statement on; `c.cache` becomes the address of the new record
(state 7) while it is held; the next statement releases it (state 8), no
producer having been invoked; only the statement after that invokes the
producer (state 9: one invocation, environment updated), and the mutex stays
free to the end.
In the wait branch: the goroutine releases the mutex (state 5) and only then
stands at the receive on the gate; no producer is invoked and the mutex stays
free, whether the receive proceeds or blocks.
`Clear` holds the mutex from its first statement to its last, which releases
it, invokes nothing, and leaves the heap that `Clear` computes. -/
theorem mutex_released_before_producer {W T E : Type} [Inhabited T] (c : Cache T E)
    (old : record T E) (fn : Fn W T E) (tSince tNow : Int) (w : W)
    (hcur : c.current = some old) :
    (acquisitions ((trajectory (spawn c w [fn]) (soloSchedule tSince tNow)).map
        (fun s => s.mem.mu)) = 1 ∧
      releases ((trajectory (spawn c w [fn]) (soloSchedule tSince tNow)).map
        (fun s => s.mem.mu)) = 1) ∧
    (Since tSince old.createdAt > old.cacheFor →
      (trajectory (spawn c w [fn]) (soloSchedule tSince tNow)).map
          (fun s => (s.mem.mu, s.mem.cache, s.mem.calls, s.mem.world))
        = [(false, c.cache, [], w), (true, c.cache, [], w), (true, c.cache, [], w),
           (true, c.cache, [], w), (true, c.cache, [], w), (true, c.cache, [], w),
           (true, c.cache, [], w), (true, c.heap.length, [], w),
           (false, c.heap.length, [], w), (false, c.heap.length, [0], (fn w).2),
           (false, c.heap.length, [0], (fn w).2), (false, c.heap.length, [0], (fn w).2),
           (false, c.heap.length, [0], (fn w).2)] ∧
      ((trajectory (spawn c w [fn]) (soloSchedule tSince tNow)).map
          (fun s => s.threads.map (fun th => th.pc))).take 9
        = [[.lock], [.load], [.since c.cache], [.test c.cache (Since tSince old.createdAt)],
           [.alloc c.cache], [.stamp c.heap.length], [.install c.heap.length],
           [.unlockR c.heap.length], [.call c.heap.length]]) ∧
    (Since tSince old.createdAt ≤ old.cacheFor →
      (trajectory (spawn c w [fn]) (soloSchedule tSince tNow)).map
          (fun s => (s.mem.mu, s.mem.cache, s.mem.calls, s.mem.world))
        = [(false, c.cache, [], w), (true, c.cache, [], w), (true, c.cache, [], w),
           (true, c.cache, [], w), (true, c.cache, [], w), (false, c.cache, [], w),
           (false, c.cache, [], w), (false, c.cache, [], w), (false, c.cache, [], w),
           (false, c.cache, [], w), (false, c.cache, [], w), (false, c.cache, [], w),
           (false, c.cache, [], w)] ∧
      ((trajectory (spawn c w [fn]) (soloSchedule tSince tNow)).map
          (fun s => s.threads.map (fun th => th.pc))).take 6
        = [[.lock], [.load], [.since c.cache], [.test c.cache (Since tSince old.createdAt)],
           [.unlockW c.cache], [.recv c.cache]]) ∧
    ((ClearPc.trajectory 5 .lock (⟨c.heap, c.cache, false, w, []⟩ : Shared W T E)).map
        (fun x => (x.1, x.2.mu, x.2.cache, x.2.calls, x.2.world))
      = [(.lock, false, c.cache, [], w), (.load, true, c.cache, [], w),
         (.zeroValue c.cache, true, c.cache, [], w),
         (.zeroCacheFor c.cache, true, c.cache, [], w), (.unlock, true, c.cache, [], w),
         (.done, false, c.cache, [], w)] ∧
      (ClearPc.trajectory 5 .lock (⟨c.heap, c.cache, false, w, []⟩ : Shared W T E)).getLast?.map
        (fun x => x.2.heap) = some (Clear c).cache.heap) := by
  refine ⟨?_, fun hs => solo_refresh_history c old fn tSince tNow w hcur hs,
    fun hs => solo_wait_history c old fn tSince tNow w hcur hs, solo_clear_history c old w hcur⟩
  by_cases hs : Since tSince old.createdAt > old.cacheFor
  · have h := congrArg (List.map Prod.fst) (solo_refresh_history c old fn tSince tNow w hcur hs).1
    simp only [List.map_map] at h
    have hmu : (trajectory (spawn c w [fn]) (soloSchedule tSince tNow)).map (fun s => s.mem.mu)
        = [false, true, true, true, true, true, true, true, false, false, false, false,
           false] := h
    rw [hmu]
    exact ⟨by decide, by decide⟩
  · have h := congrArg (List.map Prod.fst)
      (solo_wait_history c old fn tSince tNow w hcur (not_lt.mp hs)).1
    simp only [List.map_map] at h
    have hmu : (trajectory (spawn c w [fn]) (soloSchedule tSince tNow)).map (fun s => s.mem.mu)
        = [false, true, true, true, true, false, false, false, false, false, false, false,
           false] := h
    rw [hmu]
    exact ⟨by decide, by decide⟩

theorem mutex_released_before_producer_witness :
    (trajectory (spawn (New 1000) 0 [produce123]) (soloSchedule 5000 5001)).map
        (fun s => (s.mem.mu, s.mem.cache, s.mem.calls, s.mem.world))
      = [(false, 0, [], 0), (true, 0, [], 0), (true, 0, [], 0), (true, 0, [], 0),
         (true, 0, [], 0), (true, 0, [], 0), (true, 0, [], 0), (true, 1, [], 0),
         (false, 1, [], 0), (false, 1, [0], 1), (false, 1, [0], 1), (false, 1, [0], 1),
         (false, 1, [0], 1)] :=
  ((mutex_released_before_producer (New 1000) ⟨0, 0, 1000, none, .nil⟩ produce123 5000 5001 0
    rfl).2.1 (by decide)).1

end cache
